import Mathlib

/-!
Verification of the weekly time-block scheduler in `src/lib/planner.ts`.

Shallow embedding conventions:
* Instants are integer minutes on the local timeline (`Int`); a calendar day is
  1440 minutes and the epoch is a local Sunday midnight (weekday 0), so JS
  `getDay` becomes `(t / 1440) % 7`. Daylight-saving shifts are outside the
  model, so JS `setDate(+1)` / `setMinutes(+m)` become `+1440` / `+m`.
  The source mostly measures time in milliseconds; the model measures the same
  quantities in minutes, which rescales every comparison by the constant 60000
  and leaves every branch condition unchanged.
* Strings that the source only ever feeds to `new Date(...)` are embedded as
  their parse result `Option Int` (`none` = the parse yields `NaN`).  The
  formatted timestamps on an emitted block (`formatLocalDateToISO`, an
  injective local-time rendering that `new Date` round-trips) are likewise
  carried as `Option Int`.
* JS numbers are embedded as exact fractions (`JsNumber`, an integer
  numerator over a positive integer denominator); `NaN`/`Infinity` are outside
  the model.  `Math.floor`/`Math.ceil` become exact floor/ceiling division and
  JS `Math.round q` is `⌊q + 1/2⌋` (half toward +∞).
* The loosely-typed preference payload (`unknown`) is embedded as an inductive
  `JsValue` of JSON-like values.
-/

namespace Planner

/-- `SCHEDULE_SLOT_MINUTES` from the source. -/
def SCHEDULE_SLOT_MINUTES : Int := 30

/-- Local midnight of an instant (JS `setHours(0,0,0,0)` on a date, DST-free). -/
def localMidnight (t : Int) : Int := 1440 * (t / 1440)

/-- JS `Date.prototype.getDay` (0 = Sunday ... 6 = Saturday) in the model:
the epoch is a Sunday midnight. -/
def getDay (t : Int) : Int := (t / 1440) % 7

/-- A finite JS number as an exact fraction `num / den`.  Values with
`den > 0` represent the JS numbers; the operations below are total anyway.
(Kept unreduced: only the represented value ever matters.) -/
structure JsNumber where
  num : Int
  den : Int
deriving DecidableEq, Repr

/-- `⌈a / b⌉` for `b > 0` (`/` is Euclidean, i.e. floor, division there). -/
def intCeilDiv (a b : Int) : Int := -((-a) / b)

/-- JS `Math.floor` on a fraction with positive denominator. -/
def jsFloor (q : JsNumber) : Int := q.num / q.den

/-- JS `Math.round` (half toward positive infinity): `⌊q + 1/2⌋`. -/
def jsRound (q : JsNumber) : Int := (2 * q.num + q.den) / (2 * q.den)

/-- JS `Number.isInteger` on a fraction with positive denominator. -/
def jsIsInteger (q : JsNumber) : Bool := q.num % q.den == 0

/-- Rendering of a JS number into an interpolated string; the source uses the
float formatting, the model an injective rendering of the fraction. -/
def JsNumber.render (q : JsNumber) : String := toString q.num ++ "/" ++ toString q.den

/-- `DaySchedulePreference` from the source. -/
structure DaySchedulePreference where
  weekday : Int
  enabled : Bool
  startHour : Int
  endHour : Int
deriving DecidableEq, Repr

/-- `SchedulePreferences` from the source. -/
structure SchedulePreferences where
  dayRules : List DaySchedulePreference
  maxWorkMinutesPerDay : Int
  breakEveryFocusMinutes : Int
  shortBreakMinutes : Int
  maxContinuousFocusMinutes : Int
deriving DecidableEq, Repr

/-- One entry of `DEFAULT_SCHEDULE_PREFERENCES.dayRules`. -/
def defaultDayRule (weekday : Int) : DaySchedulePreference :=
  { weekday := weekday, enabled := true, startHour := 8, endHour := 23 }

/-- `DEFAULT_SCHEDULE_PREFERENCES` from the source. -/
def DEFAULT_SCHEDULE_PREFERENCES : SchedulePreferences :=
  { dayRules := (List.range 7).map (fun w => defaultDayRule (Int.ofNat w))
    maxWorkMinutesPerDay := 8 * 60
    breakEveryFocusMinutes := 90
    shortBreakMinutes := 10
    maxContinuousFocusMinutes := 120 }

/-- JSON-like universe for the `unknown` preference payload.  JS numbers are
modelled as finite exact fractions (`NaN` and the infinities are outside the model);
`undefined` is the result of any missing property access. -/
inductive JsValue where
  | null
  | undefined
  | boolean (b : Bool)
  | num (q : JsNumber)
  | str (s : String)
  | arr (items : List JsValue)
  | obj (fields : List (String × JsValue))
deriving Repr

/-- Truthy-object test `!!value && typeof value === "object"` (arrays included,
`null` excluded because it is falsy). -/
def JsValue.isObjectLike : JsValue → Bool
  | .arr _ => true
  | .obj _ => true
  | _ => false

/-- Property access `value.name`: `undefined` on everything that is not an
object with that key (JS objects have unique keys; first match taken). -/
def JsValue.getField : JsValue → String → JsValue
  | .obj fields, name => (match fields.find? (fun f => f.1 == name) with
      | some f => f.2
      | none => .undefined)
  | _, _ => .undefined

/-- `typeof x === "number"` capture: the rational payload when present. -/
def JsValue.asNum : JsValue → Option JsNumber
  | .num q => some q
  | _ => none

/-- `typeof x === "boolean"` capture. -/
def JsValue.asBool : JsValue → Option Bool
  | .boolean b => some b
  | _ => none

/-- Parsing of one raw `dayRules` entry (the `.map` body at planner.ts:83-101). -/
def parseDayRuleEntry (item : JsValue) : DaySchedulePreference :=
  let weekday : Int :=
    match item.getField "weekday" |>.asNum with
    | some q => if jsIsInteger q then jsFloor q else -1
    | none => -1
  let enabled : Bool :=
    match item.getField "enabled" |>.asBool with
    | some b => b
    | none => true
  let startHourRaw : Int :=
    match item.getField "startHour" |>.asNum with
    | some q => jsFloor q
    | none => 8
  let endHourRaw : Int :=
    match item.getField "endHour" |>.asNum with
    | some q => jsFloor q
    | none => 23
  { weekday := weekday
    enabled := enabled
    startHour := max 0 (min 23 startHourRaw)
    endHour := max 1 (min 24 endHourRaw) }

/-- The inverted-window fix (planner.ts:103-108). -/
def fixInvertedWindow (rule : DaySchedulePreference) : DaySchedulePreference :=
  if rule.startHour ≥ rule.endHour then { rule with startHour := 8, endHour := 23 }
  else rule

/-- The `dayRules`-array branch of the normalizer (planner.ts:80-108). -/
def parseDayRulesArray (items : List JsValue) : List DaySchedulePreference :=
  (((items.filter (fun item => item.isObjectLike)).map parseDayRuleEntry).filter
      (fun rule => rule.weekday ≥ 0 ∧ rule.weekday ≤ 6)).map fixInvertedWindow

/-- The legacy global-window branch (planner.ts:109-130). -/
def parseLegacyRules (raw : JsValue) : List DaySchedulePreference :=
  let startHourRaw : Int :=
    match raw.getField "startHour" |>.asNum with
    | some q => jsFloor q
    | none => 8
  let endHourRaw : Int :=
    match raw.getField "endHour" |>.asNum with
    | some q => jsFloor q
    | none => 23
  let startHour := max 0 (min 23 startHourRaw)
  let endHour := max 1 (min 24 endHourRaw)
  let legacyActive : List Int :=
    match raw.getField "activeWeekdays" with
    | .arr items => items.filterMap (fun day =>
        match day.asNum with
        | some q => if jsIsInteger q ∧ 0 ≤ jsFloor q ∧ jsFloor q ≤ 6 then some (jsFloor q) else none
        | none => none)
    | _ => [0, 1, 2, 3, 4, 5, 6]
  (List.range 7).map (fun w =>
    { weekday := Int.ofNat w
      enabled := legacyActive.contains (Int.ofNat w)
      startHour := if startHour < endHour then startHour else 8
      endHour := if startHour < endHour then endHour else 23 })

/-- The weekday-keyed merge map (planner.ts:132-140): defaults for weekdays
0-6 are inserted first, then parsed rules overwrite (`Map.set`, last write
wins); reading the values sorted by weekday yields, for each weekday, the last
parsed rule with that weekday or the default. -/
def mergedDayRule (parsedRules : List DaySchedulePreference) (w : Int) : DaySchedulePreference :=
  match (parsedRules.filter (fun r => r.weekday == w)).getLast? with
  | some r => r
  | none => defaultDayRule w

/-- One scalar clamp `Math.max(lo, Math.min(hi, typeof raw === "number" ?
Math.round(raw) : dflt))`. -/
def clampScalar (raw : JsValue) (dflt lo hi : Int) : Int :=
  let v := match raw.asNum with
    | some q => jsRound q
    | none => dflt
  max lo (min hi v)

/-- The branch choice `Array.isArray(raw.dayRules)` (planner.ts:80-130):
either the `dayRules`-array parse or the legacy global-window parse. -/
def normalizedParsedRules (value : JsValue) : List DaySchedulePreference :=
  match value.getField "dayRules" with
  | .arr items => parseDayRulesArray items
  | _ => parseLegacyRules value

/-- The final rule set (planner.ts:132-141, 171): parsed rules merged over the
defaults by weekday, with the full default set substituted when nothing is
enabled. -/
def normalizedDayRules (value : JsValue) : List DaySchedulePreference :=
  let dayRules := (List.range 7).map (fun w => mergedDayRule (normalizedParsedRules value) (Int.ofNat w))
  if dayRules.any (fun rule => rule.enabled) then dayRules
  else DEFAULT_SCHEDULE_PREFERENCES.dayRules

/-- `normalizeSchedulePreferences` (planner.ts:62-177). -/
def normalizeSchedulePreferences (value : JsValue) : SchedulePreferences :=
  if ¬ value.isObjectLike then DEFAULT_SCHEDULE_PREFERENCES
  else
    { dayRules := normalizedDayRules value
      maxWorkMinutesPerDay := clampScalar (value.getField "maxWorkMinutesPerDay") (8 * 60) 60 (16 * 60)
      breakEveryFocusMinutes := clampScalar (value.getField "breakEveryFocusMinutes") 90 30 (6 * 60)
      shortBreakMinutes := clampScalar (value.getField "shortBreakMinutes") 10 5 60
      maxContinuousFocusMinutes := clampScalar (value.getField "maxContinuousFocusMinutes") 120 SCHEDULE_SLOT_MINUTES (8 * 60) }

/-- `TaskAnalysis` from the source.  String fields that the source only parses
are embedded as their parse result: `deadline` is the `new Date(deadline)`
outcome (`none` = `NaN`); `notBeforeISO`'s outer layer is presence of a truthy
string and its inner layer that string's parse outcome. -/
structure TaskAnalysis where
  id : String
  title : String
  details : String
  deadline : Option Int
  estimatedHours : JsNumber
  urgencyScore : Int
  priorityScore : Int
  priorityLabel : String
  isSplittable : Option Bool
  notBeforeISO : Option (Option Int)
deriving DecidableEq, Repr

/-- `BusyInterval` from the source; each field is the parse result of the
caller-supplied ISO string. -/
structure BusyInterval where
  startISO : Option Int
  endISO : Option Int
deriving DecidableEq, Repr

/-- `ScheduledBlock` from the source.  `startISO`/`endISO` hold the instant the
block's `formatLocalDateToISO` string renders (that rendering is injective and
round-trips through `new Date`); `none` stands for an unparseable string, which
the allocator itself never produces. -/
structure ScheduledBlock where
  taskId : String
  taskTitle : String
  startISO : Option Int
  endISO : Option Int
  minutes : Int
  calendarDescription : String
deriving DecidableEq, Repr

/-- `parseDeadline` (planner.ts:203-209): an unparseable deadline falls back to
`new Date()` = `now`. -/
def parseDeadline (now : Int) (deadline : Option Int) : Int :=
  match deadline with
  | some t => t
  | none => now

/-- `isOverlappingBusyWindow` (planner.ts:211-222): intervals whose endpoints
fail to parse are skipped; otherwise strict half-open overlap. -/
def isOverlappingBusyWindow (start «end» : Int) (busyIntervals : List BusyInterval) : Bool :=
  busyIntervals.any (fun interval =>
    match interval.startISO, interval.endISO with
    | some busyStart, some busyEnd => decide (start < busyEnd ∧ «end» > busyStart)
    | _, _ => false)

/-- `blockOverlapsBusy` (planner.ts:224-229): a block with an unparseable
timestamp is reported as not overlapping. -/
def blockOverlapsBusy (block : ScheduledBlock) (busyIntervals : List BusyInterval) : Bool :=
  match block.startISO, block.endISO with
  | some start, some «end» => isOverlappingBusyWindow start «end» busyIntervals
  | _, _ => false

/-- `nextCalendarDays` (planner.ts:237-247): `count` day anchors starting at
`start`, one calendar day (1440 minutes, DST-free) apart. -/
def nextCalendarDays (start : Int) (count : Nat) : List Int :=
  (List.range count).map (fun i => start + 1440 * Int.ofNat i)

/-- `isSameLocalDate` (planner.ts:249-255). -/
def isSameLocalDate (a b : Int) : Bool := localMidnight a == localMidnight b

/-- Rule lookup `preferences.dayRules.find(...) ?? DEFAULT...dayRules[getDay]`
(planner.ts:265-267, 282-284, 437-439). -/
def findRule (preferences : SchedulePreferences) (weekday : Int) : DaySchedulePreference :=
  match preferences.dayRules.find? (fun rule => rule.weekday == weekday) with
  | some rule => rule
  | none => defaultDayRule weekday

/-- The bounded search of `moveToNextEligibleDayStart` (planner.ts:257-278),
recursing on the remaining `safety` budget (14 days, then the 08:00 fallback). -/
def moveToNextEligibleDayStartAux (preferences : SchedulePreferences) : Nat → Int → Int
  | 0, next => localMidnight next + 8 * 60
  | safety + 1, next =>
    let dayRule := findRule preferences (getDay next)
    if dayRule.enabled then localMidnight next + dayRule.startHour * 60
    else moveToNextEligibleDayStartAux preferences safety (next + 1440)

/-- `moveToNextEligibleDayStart` (planner.ts:257-278). -/
def moveToNextEligibleDayStart (date : Int) (preferences : SchedulePreferences) : Int :=
  moveToNextEligibleDayStartAux preferences 14 date

/-- `getSchedulingStart` (planner.ts:280-328).  The model's instants are whole
minutes, so the source's seconds/milliseconds are zero and rounding is plain
round-up to the next 30-minute boundary. -/
def getSchedulingStart (now : Int) (preferences : SchedulePreferences) : Int :=
  let todayRule := findRule preferences (getDay now)
  if ¬ todayRule.enabled then moveToNextEligibleDayStart now preferences
  else
    let dayStart := localMidnight now + todayRule.startHour * 60
    let dayEnd := localMidnight now + todayRule.endHour * 60
    if now < dayStart then dayStart
    else if now ≥ dayEnd then moveToNextEligibleDayStart (now + 1440) preferences
    else
      let rounded := if now % 30 == 0 then now else now + (30 - now % 30)
      if rounded ≥ dayEnd then moveToNextEligibleDayStart (now + 1440) preferences
      else if rounded < dayStart then dayStart
      else rounded

/-- The internal queue item (planner.ts:365-389): a task plus the allocator's
rounding and progress fields (time fields in model-minutes). -/
structure QItem where
  id : String
  title : String
  details : String
  deadline : Option Int
  estimatedHours : JsNumber
  urgencyScore : Int
  priorityScore : Int
  priorityLabel : String
  isSplittable : Bool
  deadlineMs : Int
  notBeforeMs : Option Int
  totalRoundedMinutes : Int
  remainingMinutes : Int
deriving DecidableEq, Repr

instance : Inhabited QItem :=
  ⟨{ id := "", title := "", details := "", deadline := none, estimatedHours := ⟨0, 1⟩,
     urgencyScore := 0, priorityScore := 0, priorityLabel := "", isSplittable := true,
     deadlineMs := 0, notBeforeMs := none, totalRoundedMinutes := 0, remainingMinutes := 0 }⟩

/-- Effort rounding (planner.ts:369-372): up to slot granularity, minimum one
slot. -/
def roundedMinutesOf (estimatedHours : JsNumber) : Int :=
  max SCHEDULE_SLOT_MINUTES
    (intCeilDiv (estimatedHours.num * 60) (estimatedHours.den * SCHEDULE_SLOT_MINUTES) *
      SCHEDULE_SLOT_MINUTES)

/-- One queue entry (the `.map` body at planner.ts:366-388); `none` when the
raw effort is non-positive. -/
def buildQueueItem (now : Int) (task : TaskAnalysis) : Option QItem :=
  if task.estimatedHours.num * 60 ≤ 0 then none
  else some
    { id := task.id, title := task.title, details := task.details,
      deadline := task.deadline, estimatedHours := task.estimatedHours,
      urgencyScore := task.urgencyScore, priorityScore := task.priorityScore,
      priorityLabel := task.priorityLabel,
      isSplittable := task.isSplittable ≠ some false,
      deadlineMs := parseDeadline now task.deadline,
      notBeforeMs := (match task.notBeforeISO with
        | some (some t) => some t
        | _ => none),
      totalRoundedMinutes := roundedMinutesOf task.estimatedHours,
      remainingMinutes := roundedMinutesOf task.estimatedHours }

/-- The queue (planner.ts:365-389). -/
def buildQueue (now : Int) (analysis : List TaskAnalysis) : List QItem :=
  analysis.filterMap (buildQueueItem now)

/-- Total indexing into the queue (candidate indices are always in bounds). -/
def qget (queue : List QItem) (i : Nat) : QItem := (queue.get? i).getD default

/-- The candidate comparator (planner.ts:492-519), sign-faithful: the source
returns differences of hours (rationals) or of milliseconds whose sign alone
drives the sort; the model returns the same quantities rescaled to minutes.
A negative result orders `a` first. -/
def compareCandidates (start : Int) (a b : QItem) : Int :=
  let aMinutesToDeadline := a.deadlineMs - start
  let bMinutesToDeadline := b.deadlineMs - start
  let aDueSoon : Bool := aMinutesToDeadline ≤ 72 * 60
  let bDueSoon : Bool := bMinutesToDeadline ≤ 72 * 60
  if aDueSoon ≠ bDueSoon then (if aDueSoon then -1 else 1)
  else if (max (aMinutesToDeadline - bMinutesToDeadline) (bMinutesToDeadline - aMinutesToDeadline) ≥ 24 * 60
      ∧ (aDueSoon ∨ bDueSoon)) then
    aMinutesToDeadline - bMinutesToDeadline
  else
    let aCriticalSoon : Int := if a.priorityScore ≥ 85 ∧ aMinutesToDeadline ≤ 48 * 60 then 1 else 0
    let bCriticalSoon : Int := if b.priorityScore ≥ 85 ∧ bMinutesToDeadline ≤ 48 * 60 then 1 else 0
    if aCriticalSoon ≠ bCriticalSoon then bCriticalSoon - aCriticalSoon
    else if a.priorityScore ≠ b.priorityScore then b.priorityScore - a.priorityScore
    else if a.urgencyScore ≠ b.urgencyScore then b.urgencyScore - a.urgencyScore
    else
      let aSlack := a.deadlineMs - start - max a.remainingMinutes SCHEDULE_SLOT_MINUTES
      let bSlack := b.deadlineMs - start - max b.remainingMinutes SCHEDULE_SLOT_MINUTES
      if aSlack ≠ bSlack then aSlack - bSlack
      else a.deadlineMs - b.deadlineMs

/-- Allocator state threaded through the day/slot loop: the mutable queue, the
emitted blocks, the planned-busy ledger, and the two per-day counters. -/
structure AllocState where
  queue : List QItem
  blocks : List ScheduledBlock
  plannedBusyIntervals : List BusyInterval
  workedMinutesToday : Int
  focusMinutesSinceBreak : Int
deriving DecidableEq, Repr

/-- The candidate filter chain (planner.ts:482-491) on queue indices (JS
filters produce arrays of references into the queue; indices model that
aliasing), followed by the sort (planner.ts:492-519).  JS `Array.sort` is
stable; the model pins it as a stable merge sort on `comparator ≤ 0`. -/
def candidateIndices (preferences : SchedulePreferences) (queue : List QItem)
    (worked start «end» : Int) : List Nat :=
  ((List.range queue.length).filter (fun i =>
      let task := qget queue i
      decide (task.remainingMinutes > 0) &&
      decide (task.deadlineMs ≥ «end») &&
      (match task.notBeforeMs with
        | none => true
        | some nb => decide (start ≥ nb)) &&
      decide (worked + (if task.isSplittable then SCHEDULE_SLOT_MINUTES else task.totalRoundedMinutes)
        ≤ preferences.maxWorkMinutesPerDay))).insertionSort
    (fun i j => compareCandidates start (qget queue i) (qget queue j) ≤ 0)

/-- The body of `canFitContiguousBlock` after the not-before guard. -/
def canFitContiguousBlockTail (busyIntervals plannedBusyIntervals : List BusyInterval)
    (start dayEnd totalMinutes deadlineMs : Int) : Bool :=
  let blockEnd := start + totalMinutes
  if blockEnd > dayEnd then false
  else if deadlineMs < blockEnd then false
  else (List.range (Int.toNat (intCeilDiv totalMinutes 30))).all (fun k =>
    let cursor := start + 30 * Int.ofNat k
    let slotEnd := cursor + 30
    ¬ isOverlappingBusyWindow cursor slotEnd busyIntervals ∧
    ¬ isOverlappingBusyWindow cursor slotEnd plannedBusyIntervals)

/-- `canFitContiguousBlock` (planner.ts:391-414): the cursor loop over the
constituent 30-minute slots is the range over `⌈totalMinutes / 30⌉` offsets. -/
def canFitContiguousBlock (busyIntervals plannedBusyIntervals : List BusyInterval)
    (start dayEnd totalMinutes deadlineMs : Int) (notBeforeMs : Option Int) : Bool :=
  match notBeforeMs with
  | some nb => if start < nb then false else
      canFitContiguousBlockTail busyIntervals plannedBusyIntervals start dayEnd totalMinutes deadlineMs
  | none => canFitContiguousBlockTail busyIntervals plannedBusyIntervals start dayEnd totalMinutes deadlineMs

/-- The block a placement emits (`pushBlock`, planner.ts:416-434); the
description is the source's template with raw-string interpolations replaced
by their embedded counterparts. -/
def mkBlock (task : QItem) (start minutes : Int) : ScheduledBlock :=
  { taskId := task.id
    taskTitle := task.title
    startISO := some start
    endISO := some (start + minutes)
    minutes := minutes
    calendarDescription :=
      task.details ++ "\nPriority: " ++ task.priorityLabel ++ " (" ++
      toString task.priorityScore ++ "/100)\nEstimated effort: " ++
      task.estimatedHours.render ++ "h\nDeadline: " ++
      (match task.deadline with
        | some d => toString d
        | none => "invalid") ++
      "\nWork.ai Task ID: " ++ task.id }

/-- `pushBlock` (planner.ts:416-434): appends the block and records its
interval in the planned-busy ledger. -/
def pushBlock (st : AllocState) (task : QItem) (start minutes : Int) : AllocState :=
  { st with
    blocks := st.blocks ++ [mkBlock task start minutes]
    plannedBusyIntervals := st.plannedBusyIntervals ++
      [{ startISO := some start, endISO := some (start + minutes) }] }

/-- The placeability test inside `candidates.find` (planner.ts:521-531). -/
def placeableAt (busyIntervals : List BusyInterval) (st : AllocState)
    (start dayEnd : Int) (task : QItem) : Bool :=
  if task.isSplittable then true
  else if task.remainingMinutes < task.totalRoundedMinutes then false
  else canFitContiguousBlock busyIntervals st.plannedBusyIntervals start dayEnd
    task.totalRoundedMinutes task.deadlineMs task.notBeforeMs

/-- The body of one slot iteration (planner.ts:457-547) after the loop's own
`end > dayEnd` / daily-cap exits: busy skips, break trigger, candidate
selection and placement. -/
def slotStep (busyIntervals : List BusyInterval) (preferences : SchedulePreferences)
    (dayEnd start : Int) (st : AllocState) : AllocState :=
  let «end» := start + 30
  if isOverlappingBusyWindow start «end» busyIntervals then st
  else if isOverlappingBusyWindow start «end» st.plannedBusyIntervals then
    { st with focusMinutesSinceBreak := 0 }
  else
    let breakTriggerMinutes := min preferences.breakEveryFocusMinutes preferences.maxContinuousFocusMinutes
    if st.focusMinutesSinceBreak ≥ breakTriggerMinutes then
      { st with
        plannedBusyIntervals := st.plannedBusyIntervals ++
          [{ startISO := some start,
             endISO := some (start + min 30 preferences.shortBreakMinutes) }]
        focusMinutesSinceBreak := 0 }
    else
      let candidates := candidateIndices preferences st.queue st.workedMinutesToday start «end»
      match candidates.find? (fun i => placeableAt busyIntervals st start dayEnd (qget st.queue i)) with
      | none => st
      | some i =>
        let chosen := qget st.queue i
        if ¬ chosen.isSplittable then
          { pushBlock st chosen start chosen.totalRoundedMinutes with
            queue := st.queue.set i { chosen with remainingMinutes := 0 }
            workedMinutesToday := st.workedMinutesToday + chosen.totalRoundedMinutes
            focusMinutesSinceBreak := st.focusMinutesSinceBreak + chosen.totalRoundedMinutes }
        else
          { pushBlock st chosen start 30 with
            queue := st.queue.set i { chosen with remainingMinutes := chosen.remainingMinutes - 30 }
            workedMinutesToday := st.workedMinutesToday + 30
            focusMinutesSinceBreak := st.focusMinutesSinceBreak + 30 }

/-- The slot loop of one day (planner.ts:452-547): start at `firstSlotStart`,
step 30 minutes while `start < dayEnd`, stopping when the slot would overrun
the window or the daily cap is reached.  `fuel` is a structural bound; the
caller passes enough for the guard, not the fuel, to stop the loop. -/
def runSlots (busyIntervals : List BusyInterval) (preferences : SchedulePreferences)
    (dayEnd : Int) : Nat → Int → AllocState → AllocState
  | 0, _, st => st
  | fuel + 1, start, st =>
    if start < dayEnd then
      if start + 30 > dayEnd then st
      else if st.workedMinutesToday ≥ preferences.maxWorkMinutesPerDay then st
      else runSlots busyIntervals preferences dayEnd fuel (start + 30)
        (slotStep busyIntervals preferences dayEnd start st)
    else st

/-- Fuel that always outlasts the slot-loop guard. -/
def slotFuel (dayEnd firstSlotStart : Int) : Nat := (dayEnd - firstSlotStart).toNat / 30 + 1

/-- One iteration of the day loop (planner.ts:436-548). -/
def runDay (busyIntervals : List BusyInterval) (preferences : SchedulePreferences)
    (schedulingStart day : Int) (st : AllocState) : AllocState :=
  let dayRule := findRule preferences (getDay day)
  if ¬ dayRule.enabled then st
  else
    let dayStart := localMidnight day + dayRule.startHour * 60
    let dayEnd := localMidnight day + dayRule.endHour * 60
    let firstSlotStart := if isSameLocalDate day schedulingStart then max schedulingStart dayStart else dayStart
    runSlots busyIntervals preferences dayEnd (slotFuel dayEnd firstSlotStart) firstSlotStart
      { st with workedMinutesToday := 0, focusMinutesSinceBreak := 0 }

/-- `mergeSequentialBlocks` merge condition (planner.ts:186-191). -/
def mergeCond (last block : ScheduledBlock) : Prop :=
  last.taskId = block.taskId ∧ last.endISO = block.startISO ∧
  last.calendarDescription = block.calendarDescription

instance (last block : ScheduledBlock) : Decidable (mergeCond last block) :=
  inferInstanceAs (Decidable (last.taskId = block.taskId ∧ last.endISO = block.startISO ∧
    last.calendarDescription = block.calendarDescription))

/-- The in-place merge (planner.ts:192-194). -/
def mergeInto (last block : ScheduledBlock) : ScheduledBlock :=
  { last with endISO := block.endISO, minutes := last.minutes + block.minutes }

/-- The merge loop of `mergeSequentialBlocks` with the current trailing block
carried explicitly (the source mutates `merged[merged.length - 1]` in place;
once a further block is pushed the earlier ones are never touched again). -/
def mergeAux (last : ScheduledBlock) : List ScheduledBlock → List ScheduledBlock
  | [] => [last]
  | block :: rest =>
    if mergeCond last block then mergeAux (mergeInto last block) rest
    else last :: mergeAux block rest

/-- `mergeSequentialBlocks` (planner.ts:179-201). -/
def mergeSequentialBlocks : List ScheduledBlock → List ScheduledBlock
  | [] => []
  | block :: rest => mergeAux block rest

/-- `latestDeadlineMs` (planner.ts:347-350); every parsed deadline is a real
instant in the model, so the `Number.isFinite` guard is always taken. -/
def latestDeadlineMs (now schedulingStart : Int) (analysis : List TaskAnalysis) : Int :=
  analysis.foldl (fun latest task => max latest (parseDeadline now task.deadline)) schedulingStart

/-- JS `Math.ceil(a / b)` on exact arithmetic (`b > 0` at every use). -/
def jsCeilDiv (a b : Int) : Int := intCeilDiv a b

/-- `planningDays` (planner.ts:352-356); a model day is 1440 minutes. -/
def planningDays (now schedulingStart : Int) (analysis : List TaskAnalysis) : Int :=
  max 7 (min 60 (max 7 (jsCeilDiv (latestDeadlineMs now schedulingStart analysis - schedulingStart) 1440 + 1)))

/-- The enabled-day filter over the planning horizon (planner.ts:357-360);
note the filter has no default-rule fallback (`!!dayRule?.enabled`). -/
def workDays (schedulingStart : Int) (days : Nat) (preferences : SchedulePreferences) : List Int :=
  (nextCalendarDays schedulingStart days).filter (fun day =>
    match preferences.dayRules.find? (fun rule => rule.weekday == getDay day) with
    | some rule => rule.enabled
    | none => false)

/-- `generateWeeklySchedule` (planner.ts:340-552).  `now` is the `new Date()`
instant (the source constructs it afresh in `getSchedulingStart` and in each
`parseDeadline` fallback; the model uses the one instant). -/
def generateWeeklySchedule (now : Int) (analysis : List TaskAnalysis)
    (busyIntervals : List BusyInterval) (preferencesInput : JsValue) : List ScheduledBlock :=
  let preferences := normalizeSchedulePreferences preferencesInput
  let schedulingStart := getSchedulingStart now preferences
  let days := workDays schedulingStart (planningDays now schedulingStart analysis).toNat preferences
  let initState : AllocState :=
    { queue := buildQueue now analysis, blocks := [], plannedBusyIntervals := [],
      workedMinutesToday := 0, focusMinutesSinceBreak := 0 }
  let finalState := days.foldl (fun st day => runDay busyIntervals preferences schedulingStart day st) initState
  let mergedBlocks := mergeSequentialBlocks finalState.blocks
  mergedBlocks.filter (fun block => ¬ blockOverlapsBusy block busyIntervals)

/-- The instant a block's start string renders (0 when unparseable; the
allocator only emits parseable timestamps). -/
def bStart (block : ScheduledBlock) : Int := block.startISO.getD 0

/-- The instant a block's end string renders. -/
def bEnd (block : ScheduledBlock) : Int := block.endISO.getD 0

/-- Half-open overlap of two blocks' ranges, the spec's
`start < otherEnd && end > otherStart`. -/
def blocksOverlap (a b : ScheduledBlock) : Prop :=
  bStart a < bEnd b ∧ bEnd a > bStart b

/-- A busy interval both of whose endpoints parse to valid instants. -/
def BusyInterval.parseable (interval : BusyInterval) : Bool :=
  interval.startISO.isSome && interval.endISO.isSome

/-- Concrete queue item: deadline 100 hours out (not due soon), lowest
priority. -/
def cexNearTask : QItem :=
  { id := "near", title := "near", details := "", deadline := some 6000,
    estimatedHours := ⟨1, 1⟩, urgencyScore := 0, priorityScore := 0, priorityLabel := "Low",
    isSplittable := true, deadlineMs := 6000, notBeforeMs := none,
    totalRoundedMinutes := 60, remainingMinutes := 60 }

/-- Concrete queue item: deadline 200 hours out (not due soon), top
priority. -/
def cexFarTask : QItem :=
  { id := "far", title := "far", details := "", deadline := some 12000,
    estimatedHours := ⟨1, 1⟩, urgencyScore := 0, priorityScore := 100, priorityLabel := "Critical",
    isSplittable := true, deadlineMs := 12000, notBeforeMs := none,
    totalRoundedMinutes := 60, remainingMinutes := 60 }

/-- The shape C4 requires of a rule list: exactly the weekdays 0-6 in order,
each with a non-inverted window. -/
def dayRulesOK (rules : List DaySchedulePreference) : Prop :=
  rules.map (fun r => r.weekday) = [0, 1, 2, 3, 4, 5, 6] ∧
  ∀ r ∈ rules, r.startHour < r.endHour

/-- A day rule whose window sits inside the calendar day: hours in range and
not inverted.  Every rule the normalizer emits, and the default fallback,
satisfies this. -/
def ruleWF (r : DaySchedulePreference) : Prop :=
  0 ≤ r.startHour ∧ r.startHour < r.endHour ∧ r.endHour ≤ 24

/-- The state invariant behind the no-double-booking property: every emitted
block has parseable timestamps, a positive length, its exact interval on the
planned-busy ledger, and the block list is chronological (each block ends
before the next begins). -/
def BlocksBase (st : AllocState) : Prop :=
  (∀ b ∈ st.blocks, b.startISO = some (bStart b) ∧ b.endISO = some (bEnd b)) ∧
  (∀ b ∈ st.blocks, bStart b < bEnd b) ∧
  (∀ b ∈ st.blocks,
    ({ startISO := some (bStart b), endISO := some (bEnd b) } : BusyInterval) ∈ st.plannedBusyIntervals) ∧
  List.Chain' (fun a b => bEnd a ≤ bStart b) st.blocks

/-- Every queue item carries at least one slot of rounded effort (true of
`buildQueue` output and preserved by the allocator). -/
def QueueWF (st : AllocState) : Prop :=
  ∀ q ∈ st.queue, 30 ≤ q.totalRoundedMinutes

/-- The fields of a queue item the allocator never mutates (only
`remainingMinutes` changes). -/
def queueStatic (q q₀ : QItem) : Prop :=
  q.id = q₀.id ∧ q.deadlineMs = q₀.deadlineMs ∧ q.isSplittable = q₀.isSplittable ∧
  q.totalRoundedMinutes = q₀.totalRoundedMinutes

/-- The state invariant behind deadline respect, relative to the initial
queue: the live queue is the initial queue with only progress fields changed,
every block's task id is the id of some initial queue item, and every block
ends no later than the deadline of every initial item sharing its id. -/
def DeadlineInv (queue₀ : List QItem) (st : AllocState) : Prop :=
  st.queue.length = queue₀.length ∧
  (∀ i, i < queue₀.length → queueStatic (qget st.queue i) (qget queue₀ i)) ∧
  (∀ b ∈ st.blocks, ∃ i, i < queue₀.length ∧ b.taskId = (qget queue₀ i).id) ∧
  (∀ b ∈ st.blocks, ∀ q₀ ∈ queue₀, b.taskId = q₀.id → bEnd b ≤ q₀.deadlineMs)

/-- The progress side of non-splittable atomicity over explicit queue and
block lists: a non-splittable item is either untouched (full remaining effort,
no block with its id) or exhausted (zero remaining, exactly one block with its
id, carrying its full rounded effort). -/
def AtomicProgress (queue₀ queue : List QItem) (blocks : List ScheduledBlock) : Prop :=
  ∀ i, i < queue₀.length → (qget queue₀ i).isSplittable = false →
    ((qget queue i).remainingMinutes = (qget queue₀ i).totalRoundedMinutes ∧
      blocks.countP (fun b => b.taskId == (qget queue₀ i).id) = 0) ∨
    ((qget queue i).remainingMinutes = 0 ∧
      blocks.countP (fun b => b.taskId == (qget queue₀ i).id) = 1 ∧
      ∀ b ∈ blocks, b.taskId = (qget queue₀ i).id →
        b.minutes = (qget queue₀ i).totalRoundedMinutes)

/-- The state invariant behind non-splittable atomicity, relative to the
initial queue. -/
def AtomicInv (queue₀ : List QItem) (st : AllocState) : Prop :=
  st.queue.length = queue₀.length ∧
  (∀ i, i < queue₀.length → queueStatic (qget st.queue i) (qget queue₀ i)) ∧
  (∀ b ∈ st.blocks, ∃ i, i < queue₀.length ∧ b.taskId = (qget queue₀ i).id) ∧
  AtomicProgress queue₀ st.queue st.blocks

/-- Concrete splittable one-hour task due five model-days out, for witnesses. -/
def witnessTask : TaskAnalysis :=
  { id := "w1", title := "W1", details := "work", deadline := some (5 * 1440),
    estimatedHours := ⟨1, 1⟩, urgencyScore := 40, priorityScore := 50,
    priorityLabel := "Medium", isSplittable := none, notBeforeISO := none }

/-- Concrete non-splittable one-hour task due five model-days out, for
witnesses. -/
def witnessTaskNS : TaskAnalysis :=
  { id := "w2", title := "W2", details := "work", deadline := some (5 * 1440),
    estimatedHours := ⟨1, 1⟩, urgencyScore := 40, priorityScore := 50,
    priorityLabel := "Medium", isSplittable := some false, notBeforeISO := none }

end Planner

namespace Planner

/-! ## Lemmas about `mergeSequentialBlocks` -/

theorem mergeAux_head (last : ScheduledBlock) (l : List ScheduledBlock) :
    ∃ hd tl, mergeAux last l = hd :: tl ∧ hd.taskId = last.taskId ∧
      hd.startISO = last.startISO ∧ hd.calendarDescription = last.calendarDescription := by
  induction l generalizing last with
  | nil => exact ⟨last, [], rfl, rfl, rfl, rfl⟩
  | cons b rest ih =>
    simp only [mergeAux]
    split
    · exact ih (mergeInto last b)
    · exact ⟨last, mergeAux b rest, rfl, rfl, rfl, rfl⟩

theorem mergeAux_chain (last : ScheduledBlock) (l : List ScheduledBlock) :
    List.Chain' (fun a b => ¬ mergeCond a b) (mergeAux last l) := by
  induction l generalizing last with
  | nil => simp [mergeAux]
  | cons b rest ih =>
    simp only [mergeAux]
    split
    · exact ih (mergeInto last b)
    · rename_i hnc
      obtain ⟨hd, tl, heq, h1, h2, h3⟩ := mergeAux_head b rest
      rw [heq]
      rw [List.chain'_cons']
      constructor
      · intro h hmem
        simp only [List.head?_cons, Option.mem_def, Option.some.injEq] at hmem
        subst hmem
        intro hc
        exact hnc ⟨hc.1.trans h1, hc.2.1.trans h2, hc.2.2.trans h3⟩
      · rw [← heq]; exact ih b

theorem mergeAux_of_chain (last : ScheduledBlock) (l : List ScheduledBlock)
    (h : List.Chain' (fun a b => ¬ mergeCond a b) (last :: l)) :
    mergeAux last l = last :: l := by
  induction l generalizing last with
  | nil => rfl
  | cons b rest ih =>
    rw [List.chain'_cons] at h
    simp only [mergeAux]
    rw [if_neg h.1, ih b h.2]

theorem mergeSequentialBlocks_chain (blocks : List ScheduledBlock) :
    List.Chain' (fun a b => ¬ mergeCond a b) (mergeSequentialBlocks blocks) := by
  cases blocks with
  | nil => simp [mergeSequentialBlocks]
  | cons b rest => exact mergeAux_chain b rest

/-- C8: `mergeSequentialBlocks` is idempotent: applying it to its own output
returns that output unchanged, and indeed no adjacent pair of the merged
output still shares a task id, an exactly-matching end/start boundary and an
identical calendar description. -/
theorem mergeSequentialBlocks_idempotent (blocks : List ScheduledBlock) :
    mergeSequentialBlocks (mergeSequentialBlocks blocks) = mergeSequentialBlocks blocks ∧
    List.Chain' (fun a b => ¬ (a.taskId = b.taskId ∧ a.endISO = b.startISO ∧
      a.calendarDescription = b.calendarDescription)) (mergeSequentialBlocks blocks) := by
  refine ⟨?_, mergeSequentialBlocks_chain blocks⟩
  rcases hm : mergeSequentialBlocks blocks with _ | ⟨c, tl⟩
  · rfl
  · have hchain := mergeSequentialBlocks_chain blocks
    rw [hm] at hchain
    show mergeAux c tl = c :: tl
    exact mergeAux_of_chain c tl hchain

/-! ## The preference normalizer (claim C4) -/

theorem parseDayRulesArray_window (items : List JsValue) :
    ∀ r ∈ parseDayRulesArray items, r.startHour < r.endHour := by
  intro r hr
  unfold parseDayRulesArray at hr
  rcases List.mem_map.mp hr with ⟨r0, _, rfl⟩
  unfold fixInvertedWindow
  split
  · simp
  · rename_i h
    omega

theorem parseLegacyRules_window (raw : JsValue) :
    ∀ r ∈ parseLegacyRules raw, r.startHour < r.endHour := by
  intro r hr
  unfold parseLegacyRules at hr
  rcases List.mem_map.mp hr with ⟨w, _, rfl⟩
  simp only
  split
  · rename_i h
    exact h
  · decide

theorem mergedDayRule_weekday (parsed : List DaySchedulePreference) (w : Int) :
    (mergedDayRule parsed w).weekday = w := by
  unfold mergedDayRule
  cases hlast : (parsed.filter (fun r => r.weekday == w)).getLast? with
  | none => rfl
  | some r =>
    obtain ⟨hne, rfl⟩ := List.mem_getLast?_eq_getLast hlast
    have hmem := List.getLast_mem hne
    have := (List.mem_filter.mp hmem).2
    simpa using this

theorem mergedDayRule_window (parsed : List DaySchedulePreference) (w : Int)
    (hwin : ∀ r ∈ parsed, r.startHour < r.endHour) :
    (mergedDayRule parsed w).startHour < (mergedDayRule parsed w).endHour := by
  unfold mergedDayRule
  cases hlast : (parsed.filter (fun r => r.weekday == w)).getLast? with
  | none => simp [defaultDayRule]
  | some r =>
    obtain ⟨hne, rfl⟩ := List.mem_getLast?_eq_getLast hlast
    have hmem := List.getLast_mem hne
    exact hwin _ (List.mem_filter.mp hmem).1

theorem clampScalar_bounds (raw : JsValue) (dflt lo hi : Int) (h : lo ≤ hi) :
    lo ≤ clampScalar raw dflt lo hi ∧ clampScalar raw dflt lo hi ≤ hi := by
  unfold clampScalar
  cases raw.asNum <;> simp <;> omega

theorem dayRulesOK_default : dayRulesOK DEFAULT_SCHEDULE_PREFERENCES.dayRules := by
  constructor
  · decide
  · decide

theorem dayRulesOK_merged (parsed : List DaySchedulePreference)
    (hwin : ∀ r ∈ parsed, r.startHour < r.endHour) :
    dayRulesOK ((List.range 7).map (fun w => mergedDayRule parsed (Int.ofNat w))) := by
  constructor
  · rw [List.map_map]
    have : ((fun r => r.weekday) ∘ fun w => mergedDayRule parsed (Int.ofNat w)) =
        (fun w : Nat => (Int.ofNat w)) := by
      funext w
      exact mergedDayRule_weekday parsed (Int.ofNat w)
    rw [this]
    decide
  · intro r hr
    rcases List.mem_map.mp hr with ⟨w, _, rfl⟩
    exact mergedDayRule_window parsed (Int.ofNat w) hwin

/-- C4: the preference normalizer is a total function of the model (it is a
Lean `def`, so it can raise nothing), and for every input value its result has
exactly seven day rules, one per weekday 0-6 sorted by weekday, each with
`startHour < endHour`, at least one of them enabled, and all four scalar
wellness fields clamped into their documented ranges. -/
theorem normalizeSchedulePreferences_total (value : JsValue) :
    (normalizeSchedulePreferences value).dayRules.length = 7 ∧
    (normalizeSchedulePreferences value).dayRules.map (fun r => r.weekday) = [0, 1, 2, 3, 4, 5, 6] ∧
    (∀ r ∈ (normalizeSchedulePreferences value).dayRules, r.startHour < r.endHour) ∧
    (∃ r ∈ (normalizeSchedulePreferences value).dayRules, r.enabled = true) ∧
    (60 ≤ (normalizeSchedulePreferences value).maxWorkMinutesPerDay ∧
      (normalizeSchedulePreferences value).maxWorkMinutesPerDay ≤ 960) ∧
    (30 ≤ (normalizeSchedulePreferences value).breakEveryFocusMinutes ∧
      (normalizeSchedulePreferences value).breakEveryFocusMinutes ≤ 360) ∧
    (5 ≤ (normalizeSchedulePreferences value).shortBreakMinutes ∧
      (normalizeSchedulePreferences value).shortBreakMinutes ≤ 60) ∧
    (30 ≤ (normalizeSchedulePreferences value).maxContinuousFocusMinutes ∧
      (normalizeSchedulePreferences value).maxContinuousFocusMinutes ≤ 480) := by
  have hlen : ∀ rules : List DaySchedulePreference, dayRulesOK rules → rules.length = 7 := by
    intro rules hok
    have := congrArg List.length hok.1
    simpa using this
  have hwin : ∀ r ∈ normalizedParsedRules value, r.startHour < r.endHour := by
    intro r hr
    unfold normalizedParsedRules at hr
    revert hr
    split
    · exact fun hr => parseDayRulesArray_window _ r hr
    · exact fun hr => parseLegacyRules_window _ r hr
  have hrules : dayRulesOK (normalizedDayRules value) ∧
      ∃ r ∈ normalizedDayRules value, r.enabled = true := by
    unfold normalizedDayRules
    by_cases hen : ((List.range 7).map (fun w =>
        mergedDayRule (normalizedParsedRules value) (Int.ofNat w))).any (fun rule => rule.enabled)
    · rw [if_pos hen]
      refine ⟨dayRulesOK_merged _ hwin, ?_⟩
      rcases List.any_eq_true.mp hen with ⟨r, hr, hrE⟩
      exact ⟨r, hr, by simpa using hrE⟩
    · rw [if_neg hen]
      exact ⟨dayRulesOK_default, ⟨defaultDayRule 0, by decide, rfl⟩⟩
  by_cases hobj : value.isObjectLike
  · have hne : ¬ ¬ (value.isObjectLike = true) := by simpa using hobj
    unfold normalizeSchedulePreferences
    rw [if_neg hne]
    dsimp only
    refine ⟨hlen _ hrules.1, hrules.1.1, hrules.1.2, hrules.2, ?_, ?_, ?_, ?_⟩
    · have h := clampScalar_bounds (value.getField "maxWorkMinutesPerDay") (8 * 60) 60 (16 * 60) (by decide)
      omega
    · have h := clampScalar_bounds (value.getField "breakEveryFocusMinutes") 90 30 (6 * 60) (by decide)
      omega
    · have h := clampScalar_bounds (value.getField "shortBreakMinutes") 10 5 60 (by decide)
      omega
    · have h := clampScalar_bounds (value.getField "maxContinuousFocusMinutes") 120 SCHEDULE_SLOT_MINUTES (8 * 60) (by decide)
      have h30 : SCHEDULE_SLOT_MINUTES = 30 := rfl
      omega
  · unfold normalizeSchedulePreferences
    rw [if_pos hobj]
    refine ⟨by decide, by decide, by decide, ⟨defaultDayRule 0, by decide, rfl⟩, ?_, ?_, ?_, ?_⟩
    all_goals constructor <;> decide

/-- C4 witness: the normalizer at a concrete malformed legacy-shaped input —
an inverted global window (22 to 5) and an out-of-range scalar (900-minute
short break) — still yields seven rules and clamped scalars. -/
theorem normalizeSchedulePreferences_total_witness :
    (normalizeSchedulePreferences (.obj [("startHour", .num ⟨22, 1⟩), ("endHour", .num ⟨5, 1⟩),
        ("shortBreakMinutes", .num ⟨900, 1⟩)])).dayRules.length = 7 ∧
    (5 ≤ (normalizeSchedulePreferences (.obj [("startHour", .num ⟨22, 1⟩), ("endHour", .num ⟨5, 1⟩),
        ("shortBreakMinutes", .num ⟨900, 1⟩)])).shortBreakMinutes ∧
      (normalizeSchedulePreferences (.obj [("startHour", .num ⟨22, 1⟩), ("endHour", .num ⟨5, 1⟩),
        ("shortBreakMinutes", .num ⟨900, 1⟩)])).shortBreakMinutes ≤ 60) := by
  have h := normalizeSchedulePreferences_total (.obj [("startHour", .num ⟨22, 1⟩),
    ("endHour", .num ⟨5, 1⟩), ("shortBreakMinutes", .num ⟨900, 1⟩)])
  exact ⟨h.1, h.2.2.2.2.2.2.1⟩

/-! ## The candidate comparator (claim C2) -/

/-- C2 counterexample: two candidates, neither due soon (100h and 200h to
deadline), with equal due-soon flags and hours-to-deadline differing by 100
hours (≥ 24h); the claim says the nearer deadline must be ordered first ahead
of the priority tiebreak, but the comparator orders the farther, higher-priority
task first (positive result = second argument first). -/
theorem compareCandidates_gap_skipped_when_neither_dueSoon :
    ¬ (cexNearTask.deadlineMs - 0 ≤ 72 * 60) ∧ ¬ (cexFarTask.deadlineMs - 0 ≤ 72 * 60) ∧
    (cexFarTask.deadlineMs - 0) - (cexNearTask.deadlineMs - 0) ≥ 24 * 60 ∧
    cexNearTask.deadlineMs < cexFarTask.deadlineMs ∧
    compareCandidates 0 cexNearTask cexFarTask > 0 := by decide

/-- C2 (amended): the ≥24h hours-to-deadline rule applies only when, in
addition to the due-soon flags being equal, at least one candidate is due soon
— i.e. exactly when both are due soon; in that case the comparator returns the
deadline difference, ordering the nearer deadline first ahead of the
critical-and-soon, priority, urgency, slack and raw-deadline tiebreaks. -/
theorem compareCandidates_dueSoonGap (start : Int) (a b : QItem)
    (hA : a.deadlineMs - start ≤ 72 * 60)
    (hB : b.deadlineMs - start ≤ 72 * 60)
    (hgap : max ((a.deadlineMs - start) - (b.deadlineMs - start))
        ((b.deadlineMs - start) - (a.deadlineMs - start)) ≥ 24 * 60) :
    compareCandidates start a b = a.deadlineMs - b.deadlineMs ∧
    (a.deadlineMs < b.deadlineMs → compareCandidates start a b < 0) := by
  have h1 : compareCandidates start a b = a.deadlineMs - b.deadlineMs := by
    unfold compareCandidates
    simp only [decide_eq_true hA, decide_eq_true hB]
    rw [if_neg (by simp)]
    rw [if_pos ⟨hgap, by simp⟩]
    omega
  exact ⟨h1, fun hlt => by omega⟩

/-- C2 witness: the amended rule at concrete inputs — both candidates due soon
(10h and 40h out), gap 30h ≥ 24h, so the comparator returns the (negative)
deadline difference and the nearer is first. -/
theorem compareCandidates_dueSoonGap_witness :
    compareCandidates 0
      { cexNearTask with deadlineMs := 600 } { cexFarTask with deadlineMs := 2400 }
      = 600 - 2400 ∧
    compareCandidates 0
      { cexNearTask with deadlineMs := 600 } { cexFarTask with deadlineMs := 2400 } < 0 := by
  have h := compareCandidates_dueSoonGap 0
    { cexNearTask with deadlineMs := 600 } { cexFarTask with deadlineMs := 2400 }
    (by decide) (by decide) (by decide)
  exact ⟨h.1, h.2 (by decide)⟩

/-! ## The planning horizon (claim C6) -/

theorem foldl_max_init_le (f : TaskAnalysis → Int) (b : Int) (l : List TaskAnalysis) :
    b ≤ l.foldl (fun acc t => max acc (f t)) b := by
  induction l generalizing b with
  | nil => exact le_refl b
  | cons a l ih => exact le_trans (le_max_left b (f a)) (ih (max b (f a)))

theorem foldl_max_mem_le (f : TaskAnalysis → Int) (l : List TaskAnalysis) (t : TaskAnalysis) :
    t ∈ l → ∀ b : Int, f t ≤ l.foldl (fun acc t => max acc (f t)) b := by
  induction l with
  | nil => intro ht; cases ht
  | cons a l ih =>
    intro ht b
    rcases List.mem_cons.mp ht with rfl | hmem
    · exact le_trans (le_max_right b (f t)) (foldl_max_init_le f (max b (f t)) l)
    · exact ih hmem (max b (f a))

/-- C6: the planning horizon equals
`max(7, min(60, ceil((latestDeadline - schedulingStart) / day) + 1))` — the
source's inner `max(7, ...)` is absorbed — where `latestDeadlineMs` is an
upper bound of every task's parsed deadline and of the scheduling start; the
horizon always lies between 7 and 60 days. -/
theorem planningDays_spec (now schedulingStart : Int) (analysis : List TaskAnalysis) :
    planningDays now schedulingStart analysis =
      max 7 (min 60 (jsCeilDiv (latestDeadlineMs now schedulingStart analysis - schedulingStart) 1440 + 1)) ∧
    7 ≤ planningDays now schedulingStart analysis ∧
    planningDays now schedulingStart analysis ≤ 60 ∧
    schedulingStart ≤ latestDeadlineMs now schedulingStart analysis ∧
    ∀ task ∈ analysis,
      parseDeadline now task.deadline ≤ latestDeadlineMs now schedulingStart analysis := by
  refine ⟨?_, ?_, ?_, ?_, ?_⟩
  · unfold planningDays
    generalize jsCeilDiv (latestDeadlineMs now schedulingStart analysis - schedulingStart) 1440 = c
    omega
  · unfold planningDays
    omega
  · unfold planningDays
    omega
  · exact foldl_max_init_le (fun t => parseDeadline now t.deadline) schedulingStart analysis
  · exact fun task ht =>
      foldl_max_mem_le (fun t => parseDeadline now t.deadline) analysis task ht schedulingStart

/-- C6 witness: the horizon at a concrete input (one task five days out from a
Monday-morning start: `ceil(5760/1440) + 1 = 5`, clamped up to 7). -/
theorem planningDays_spec_witness :
    planningDays 1980 1980 [witnessTask] = 7 ∧
    parseDeadline 1980 witnessTask.deadline ≤ latestDeadlineMs 1980 1980 [witnessTask] := by
  have h := planningDays_spec 1980 1980 [witnessTask]
  exact ⟨by decide, h.2.2.2.2 witnessTask (List.mem_singleton.mpr rfl)⟩

/-! ## The break trigger (claim C7) -/

/-- C7: at a slot free of caller-busy and planned-busy time, once the focus
counter has reached `min(breakEveryFocusMinutes, maxContinuousFocusMinutes)`,
the slot body appends a `min(slotMinutes, shortBreakMinutes)`-long break at the
slot start to the planned-busy ledger, resets the focus counter to zero, and
changes nothing else (no block is emitted, the queue and both other counters
are untouched). -/
theorem slotStep_breakTrigger (busyIntervals : List BusyInterval)
    (preferences : SchedulePreferences) (dayEnd start : Int) (st : AllocState)
    (hbusy : isOverlappingBusyWindow start (start + 30) busyIntervals = false)
    (hplanned : isOverlappingBusyWindow start (start + 30) st.plannedBusyIntervals = false)
    (hfocus : st.focusMinutesSinceBreak ≥
      min preferences.breakEveryFocusMinutes preferences.maxContinuousFocusMinutes) :
    slotStep busyIntervals preferences dayEnd start st =
      { st with
        plannedBusyIntervals := st.plannedBusyIntervals ++
          [{ startISO := some start,
             endISO := some (start + min 30 preferences.shortBreakMinutes) }],
        focusMinutesSinceBreak := 0 } := by
  simp only [slotStep, hbusy, hplanned, Bool.false_eq_true, if_false, ge_iff_le]
  rw [if_pos (ge_iff_le.mp hfocus)]

/-- C7 witness: the break trigger at a concrete state (focus counter 90,
trigger `min 90 120 = 90`, break `min 30 10 = 10` minutes at slot start
1980). -/
theorem slotStep_breakTrigger_witness :
    slotStep [] (normalizeSchedulePreferences .null) 2400 1980
      { queue := [], blocks := [], plannedBusyIntervals := [],
        workedMinutesToday := 0, focusMinutesSinceBreak := 90 } =
      { queue := [], blocks := [],
        plannedBusyIntervals := [{ startISO := some 1980, endISO := some 1990 }],
        workedMinutesToday := 0, focusMinutesSinceBreak := 0 } := by
  have h := slotStep_breakTrigger [] (normalizeSchedulePreferences .null) 2400 1980
    { queue := [], blocks := [], plannedBusyIntervals := [],
      workedMinutesToday := 0, focusMinutesSinceBreak := 90 }
    (by decide) (by decide) (by decide)
  rw [h]
  decide

/-! ## Unparseable timestamps (claim C10) -/

theorem isOverlappingBusyWindow_filter_parseable (start en : Int) (busy : List BusyInterval) :
    isOverlappingBusyWindow start en (busy.filter (fun iv => iv.parseable)) =
      isOverlappingBusyWindow start en busy := by
  induction busy with
  | nil => rfl
  | cons iv rest ih =>
    rcases iv with ⟨s, e⟩
    cases s <;> cases e <;>
      simp_all [isOverlappingBusyWindow, BusyInterval.parseable, List.filter_cons]

theorem canFitContiguousBlockTail_filter_parseable (busy planned : List BusyInterval)
    (start dayEnd totalMinutes deadlineMs : Int) :
    canFitContiguousBlockTail (busy.filter (fun iv => iv.parseable)) planned
        start dayEnd totalMinutes deadlineMs =
      canFitContiguousBlockTail busy planned start dayEnd totalMinutes deadlineMs := by
  simp only [canFitContiguousBlockTail, isOverlappingBusyWindow_filter_parseable]

theorem canFitContiguousBlock_filter_parseable (busy planned : List BusyInterval)
    (start dayEnd totalMinutes deadlineMs : Int) (notBeforeMs : Option Int) :
    canFitContiguousBlock (busy.filter (fun iv => iv.parseable)) planned
        start dayEnd totalMinutes deadlineMs notBeforeMs =
      canFitContiguousBlock busy planned start dayEnd totalMinutes deadlineMs notBeforeMs := by
  unfold canFitContiguousBlock
  cases notBeforeMs <;>
    simp only [canFitContiguousBlockTail_filter_parseable]

theorem placeableAt_filter_parseable (busy : List BusyInterval) (st : AllocState)
    (start dayEnd : Int) (task : QItem) :
    placeableAt (busy.filter (fun iv => iv.parseable)) st start dayEnd task =
      placeableAt busy st start dayEnd task := by
  simp only [placeableAt, canFitContiguousBlock_filter_parseable]

theorem slotStep_filter_parseable (busy : List BusyInterval)
    (preferences : SchedulePreferences) (dayEnd start : Int) (st : AllocState) :
    slotStep (busy.filter (fun iv => iv.parseable)) preferences dayEnd start st =
      slotStep busy preferences dayEnd start st := by
  simp only [slotStep, isOverlappingBusyWindow_filter_parseable, placeableAt_filter_parseable]

theorem runSlots_filter_parseable (busy : List BusyInterval)
    (preferences : SchedulePreferences) (dayEnd : Int) :
    ∀ (fuel : Nat) (start : Int) (st : AllocState),
      runSlots (busy.filter (fun iv => iv.parseable)) preferences dayEnd fuel start st =
        runSlots busy preferences dayEnd fuel start st := by
  intro fuel
  induction fuel with
  | zero => intro start st; rfl
  | succ fuel ih =>
    intro start st
    unfold runSlots
    rw [slotStep_filter_parseable, ih]

theorem runDay_filter_parseable (busy : List BusyInterval)
    (preferences : SchedulePreferences) (schedulingStart day : Int) (st : AllocState) :
    runDay (busy.filter (fun iv => iv.parseable)) preferences schedulingStart day st =
      runDay busy preferences schedulingStart day st := by
  simp only [runDay, runSlots_filter_parseable]

theorem blockOverlapsBusy_filter_parseable (block : ScheduledBlock) (busy : List BusyInterval) :
    blockOverlapsBusy block (busy.filter (fun iv => iv.parseable)) =
      blockOverlapsBusy block busy := by
  unfold blockOverlapsBusy
  cases block.startISO <;> cases block.endISO <;>
    simp only [isOverlappingBusyWindow_filter_parseable]

/-- C10: busy intervals with an unparseable endpoint are invisible to the
whole run — filtering them away changes neither any overlap test, nor the
contiguous feasibility check, nor the final schedule — and a block whose own
timestamps fail to parse is reported as non-overlapping by the final filter
predicate (so that filter never drops it). -/
theorem generateWeeklySchedule_ignores_unparseable (now : Int) (analysis : List TaskAnalysis)
    (busyIntervals : List BusyInterval) (preferencesInput : JsValue) :
    generateWeeklySchedule now analysis (busyIntervals.filter (fun iv => iv.parseable)) preferencesInput =
      generateWeeklySchedule now analysis busyIntervals preferencesInput ∧
    (∀ start en : Int, isOverlappingBusyWindow start en (busyIntervals.filter (fun iv => iv.parseable)) =
      isOverlappingBusyWindow start en busyIntervals) ∧
    (∀ (planned : List BusyInterval) (start dayEnd totalMinutes deadlineMs : Int) (notBeforeMs : Option Int),
      canFitContiguousBlock (busyIntervals.filter (fun iv => iv.parseable)) planned
          start dayEnd totalMinutes deadlineMs notBeforeMs =
        canFitContiguousBlock busyIntervals planned start dayEnd totalMinutes deadlineMs notBeforeMs) ∧
    (∀ block : ScheduledBlock, block.startISO = none ∨ block.endISO = none →
      blockOverlapsBusy block busyIntervals = false) := by
  refine ⟨?_,
    fun start en => isOverlappingBusyWindow_filter_parseable start en busyIntervals,
    fun planned start dayEnd totalMinutes deadlineMs notBeforeMs =>
      canFitContiguousBlock_filter_parseable busyIntervals planned start dayEnd totalMinutes deadlineMs notBeforeMs,
    ?_⟩
  · unfold generateWeeklySchedule
    simp only [runDay_filter_parseable, blockOverlapsBusy_filter_parseable]
  · intro block hnone
    unfold blockOverlapsBusy
    rcases hnone with h | h
    · rw [h]
    · rw [h]
      cases block.startISO <;> rfl

/-- C10 witness: a concrete run with one unparseable busy interval equals the
run with it filtered away; a block with an unparseable start is reported
non-overlapping. -/
theorem generateWeeklySchedule_ignores_unparseable_witness :
    generateWeeklySchedule 1980 [witnessTask]
        ([{ startISO := none, endISO := some 2040 }].filter (fun iv => iv.parseable)) .null =
      generateWeeklySchedule 1980 [witnessTask] [{ startISO := none, endISO := some 2040 }] .null ∧
    blockOverlapsBusy
        { taskId := "x", taskTitle := "x", startISO := none, endISO := some 0,
          minutes := 30, calendarDescription := "" }
        [{ startISO := none, endISO := some 2040 }] = false := by
  have h := generateWeeklySchedule_ignores_unparseable 1980 [witnessTask]
    [{ startISO := none, endISO := some 2040 }] .null
  exact ⟨h.1, h.2.2.2 _ (Or.inl rfl)⟩

/-! ## Termination and loop bounds (claim C9) -/

theorem runSlots_add_fuel (busyIntervals : List BusyInterval)
    (preferences : SchedulePreferences) (dayEnd : Int) :
    ∀ (fuel k : Nat) (start : Int) (st : AllocState),
      (dayEnd - start).toNat / 30 + 1 ≤ fuel →
      runSlots busyIntervals preferences dayEnd (fuel + k) start st =
        runSlots busyIntervals preferences dayEnd fuel start st := by
  intro fuel
  induction fuel with
  | zero => intro k start st h; omega
  | succ fuel ih =>
    intro k start st h
    have hadd : fuel + 1 + k = (fuel + k) + 1 := by omega
    rw [hadd]
    unfold runSlots
    by_cases h1 : start < dayEnd
    · rw [if_pos h1, if_pos h1]
      by_cases h2 : start + 30 > dayEnd
      · rw [if_pos h2, if_pos h2]
      · rw [if_neg h2, if_neg h2]
        by_cases h3 : st.workedMinutesToday ≥ preferences.maxWorkMinutesPerDay
        · rw [if_pos h3, if_pos h3]
        · rw [if_neg h3, if_neg h3]
          exact ih k (start + 30) _ (by omega)
    · rw [if_neg h1, if_neg h1]

/-- C9: the model of `generateWeeklySchedule` is a total Lean function (so it
raises nothing and always returns), and its loops are bounded as the claim
says: the slot loop result does not depend on the structural fuel once the
fuel covers the `(dayEnd - start)/30` slots the guard allows (the loop stops
at the day end in fixed 30-minute steps), and the day walk is bounded by the
planning horizon, which always lies between 7 and 60 days. -/
theorem generateWeeklySchedule_total_terminating (busyIntervals : List BusyInterval)
    (preferences : SchedulePreferences) (dayEnd : Int) :
    (∀ (f1 f2 : Nat) (start : Int) (st : AllocState),
      (dayEnd - start).toNat / 30 + 1 ≤ f1 →
      (dayEnd - start).toNat / 30 + 1 ≤ f2 →
      runSlots busyIntervals preferences dayEnd f1 start st =
        runSlots busyIntervals preferences dayEnd f2 start st) ∧
    (∀ (now schedulingStart : Int) (analysis : List TaskAnalysis),
      7 ≤ planningDays now schedulingStart analysis ∧
      planningDays now schedulingStart analysis ≤ 60 ∧
      (workDays schedulingStart (planningDays now schedulingStart analysis).toNat preferences).length ≤ 60) := by
  constructor
  · intro f1 f2 start st h1 h2
    have e1 := runSlots_add_fuel busyIntervals preferences dayEnd
      ((dayEnd - start).toNat / 30 + 1) (f1 - ((dayEnd - start).toNat / 30 + 1)) start st (le_refl _)
    have e2 := runSlots_add_fuel busyIntervals preferences dayEnd
      ((dayEnd - start).toNat / 30 + 1) (f2 - ((dayEnd - start).toNat / 30 + 1)) start st (le_refl _)
    have hf1 : (dayEnd - start).toNat / 30 + 1 + (f1 - ((dayEnd - start).toNat / 30 + 1)) = f1 := by omega
    have hf2 : (dayEnd - start).toNat / 30 + 1 + (f2 - ((dayEnd - start).toNat / 30 + 1)) = f2 := by omega
    rw [hf1] at e1
    rw [hf2] at e2
    exact e1.trans e2.symm
  · intro now schedulingStart analysis
    refine ⟨?_, ?_, ?_⟩
    · unfold planningDays
      omega
    · unfold planningDays
      omega
    · have h1 : (workDays schedulingStart (planningDays now schedulingStart analysis).toNat preferences).length ≤
          (nextCalendarDays schedulingStart (planningDays now schedulingStart analysis).toNat).length := by
        unfold workDays
        exact List.length_filter_le _ _
      have h2 : (nextCalendarDays schedulingStart (planningDays now schedulingStart analysis).toNat).length =
          (planningDays now schedulingStart analysis).toNat := by
        unfold nextCalendarDays
        simp
      have h3 : planningDays now schedulingStart analysis ≤ 60 := by
        unfold planningDays
        omega
      omega

/-- C9 witness: the slot loop over a full default day gives the same state for
fuel 49 (the canonical bound) and fuel 100, and the horizon bounds at a
concrete input. -/
theorem generateWeeklySchedule_total_terminating_witness :
    runSlots [] (normalizeSchedulePreferences .null) 1440 49 0
        { queue := [], blocks := [], plannedBusyIntervals := [],
          workedMinutesToday := 0, focusMinutesSinceBreak := 0 } =
      runSlots [] (normalizeSchedulePreferences .null) 1440 100 0
        { queue := [], blocks := [], plannedBusyIntervals := [],
          workedMinutesToday := 0, focusMinutesSinceBreak := 0 } ∧
    7 ≤ planningDays 1980 1980 [witnessTask] ∧ planningDays 1980 1980 [witnessTask] ≤ 60 := by
  have h := generateWeeklySchedule_total_terminating [] (normalizeSchedulePreferences .null) 1440
  have h2 := h.2 1980 1980 [witnessTask]
  exact ⟨h.1 49 100 0 _ (by decide) (by decide), h2.1, h2.2.1⟩

/-! ## Shared allocator-loop machinery (claims C1, C3, C5) -/

theorem qget_mem (queue : List QItem) (i : Nat) (h : i < queue.length) :
    qget queue i ∈ queue := by
  unfold qget
  rw [List.get?_eq_get h]
  exact List.get_mem queue i h

theorem candidateIndices_spec (preferences : SchedulePreferences) (queue : List QItem)
    (worked start en : Int) (i : Nat)
    (h : i ∈ candidateIndices preferences queue worked start en) :
    i < queue.length ∧
    (qget queue i).remainingMinutes > 0 ∧
    (qget queue i).deadlineMs ≥ en ∧
    (∀ nb, (qget queue i).notBeforeMs = some nb → start ≥ nb) ∧
    worked + (if (qget queue i).isSplittable then SCHEDULE_SLOT_MINUTES
      else (qget queue i).totalRoundedMinutes) ≤ preferences.maxWorkMinutesPerDay := by
  unfold candidateIndices at h
  have h2 := (List.perm_insertionSort
    (fun i j => compareCandidates start (qget queue i) (qget queue j) ≤ 0) _).mem_iff.mp h
  obtain ⟨hr, hp⟩ := List.mem_filter.mp h2
  simp only [Bool.and_eq_true, decide_eq_true_eq] at hp
  refine ⟨List.mem_range.mp hr, hp.1.1.1, hp.1.1.2, ?_, hp.2⟩
  intro nb hnb
  have h3 := hp.1.2
  rw [hnb] at h3
  simpa using h3

theorem isOverlappingBusyWindow_false_spec (start en : Int) (l : List BusyInterval)
    (h : isOverlappingBusyWindow start en l = false) :
    ∀ iv ∈ l, ∀ bs be, iv.startISO = some bs → iv.endISO = some be →
      ¬(start < be ∧ en > bs) := by
  unfold isOverlappingBusyWindow at h
  rw [List.any_eq_false] at h
  intro iv hiv bs be h1 h2
  have h3 := h iv hiv
  rw [h1, h2] at h3
  simpa using h3

theorem canFitContiguousBlockTail_spec (busy planned : List BusyInterval)
    (start dayEnd total deadlineMs : Int)
    (h : canFitContiguousBlockTail busy planned start dayEnd total deadlineMs = true) :
    start + total ≤ dayEnd ∧ start + total ≤ deadlineMs ∧
    ∀ k : Nat, k < (Int.toNat (intCeilDiv total 30)) →
      isOverlappingBusyWindow (start + 30 * Int.ofNat k) (start + 30 * Int.ofNat k + 30) busy = false ∧
      isOverlappingBusyWindow (start + 30 * Int.ofNat k) (start + 30 * Int.ofNat k + 30) planned = false := by
  unfold canFitContiguousBlockTail at h
  by_cases h1 : start + total > dayEnd
  · rw [if_pos h1] at h
    exact absurd h (by simp)
  · rw [if_neg h1] at h
    by_cases h2 : deadlineMs < start + total
    · rw [if_pos h2] at h
      exact absurd h (by simp)
    · rw [if_neg h2] at h
      rw [List.all_eq_true] at h
      refine ⟨by omega, by omega, ?_⟩
      intro k hk
      have h3 := h k (List.mem_range.mpr hk)
      simp only [decide_eq_true_eq] at h3
      constructor
      · have := h3.1
        simpa using this
      · have := h3.2
        simpa using this

theorem canFitContiguousBlock_spec (busy planned : List BusyInterval)
    (start dayEnd total deadlineMs : Int) (notBeforeMs : Option Int)
    (h : canFitContiguousBlock busy planned start dayEnd total deadlineMs notBeforeMs = true) :
    start + total ≤ dayEnd ∧ start + total ≤ deadlineMs ∧
    ∀ k : Nat, k < (Int.toNat (intCeilDiv total 30)) →
      isOverlappingBusyWindow (start + 30 * Int.ofNat k) (start + 30 * Int.ofNat k + 30) busy = false ∧
      isOverlappingBusyWindow (start + 30 * Int.ofNat k) (start + 30 * Int.ofNat k + 30) planned = false := by
  unfold canFitContiguousBlock at h
  rcases hnb : notBeforeMs with _ | nb
  · rw [hnb] at h
    exact canFitContiguousBlockTail_spec busy planned start dayEnd total deadlineMs h
  · rw [hnb] at h
    dsimp only at h
    by_cases h1 : start < nb
    · rw [if_pos h1] at h
      exact absurd h (by simp)
    · rw [if_neg h1] at h
      exact canFitContiguousBlockTail_spec busy planned start dayEnd total deadlineMs h

theorem not_overlap_slot_cover (start total bs be : Int) (n : Nat)
    (htot : 0 < total) (hcov : total ≤ 30 * n) (hbsbe : bs < be)
    (hall : ∀ k : Nat, k < n →
      ¬(start + 30 * (k : Int) < be ∧ start + 30 * (k : Int) + 30 > bs)) :
    ¬(start < be ∧ start + total > bs) := by
  rintro ⟨h1, h2⟩
  rcases le_total bs start with hc | hc
  · exact hall 0 (by omega) ⟨by omega, by omega⟩
  · exact hall ((bs - start).toNat / 30) (by omega) ⟨by omega, by omega⟩

theorem placeableAt_nonsplittable_spec (busy : List BusyInterval) (st : AllocState)
    (start dayEnd : Int) (task : QItem) (hns : task.isSplittable = false)
    (h : placeableAt busy st start dayEnd task = true) :
    task.totalRoundedMinutes ≤ task.remainingMinutes ∧
    canFitContiguousBlock busy st.plannedBusyIntervals start dayEnd
      task.totalRoundedMinutes task.deadlineMs task.notBeforeMs = true := by
  unfold placeableAt at h
  rw [hns] at h
  simp only [Bool.false_eq_true, if_false] at h
  by_cases h1 : task.remainingMinutes < task.totalRoundedMinutes
  · rw [if_pos h1] at h
    exact absurd h (by simp)
  · rw [if_neg h1] at h
    exact ⟨by omega, h⟩

theorem runSlots_preserves (busy : List BusyInterval) (preferences : SchedulePreferences)
    (dayEnd : Int) (P : Int → AllocState → Prop)
    (hstep : ∀ start st, start < dayEnd → start + 30 ≤ dayEnd →
      st.workedMinutesToday < preferences.maxWorkMinutesPerDay → P start st →
      P (start + 30) (slotStep busy preferences dayEnd start st)) :
    ∀ (fuel : Nat) (start : Int) (st : AllocState), P start st →
      ∃ pos, start ≤ pos ∧ P pos (runSlots busy preferences dayEnd fuel start st) := by
  intro fuel
  induction fuel with
  | zero => exact fun start st h => ⟨start, le_refl _, h⟩
  | succ fuel ih =>
    intro start st h
    unfold runSlots
    by_cases h1 : start < dayEnd
    · rw [if_pos h1]
      by_cases h2 : start + 30 > dayEnd
      · rw [if_pos h2]
        exact ⟨start, le_refl _, h⟩
      · rw [if_neg h2]
        by_cases h3 : st.workedMinutesToday ≥ preferences.maxWorkMinutesPerDay
        · rw [if_pos h3]
          exact ⟨start, le_refl _, h⟩
        · rw [if_neg h3]
          obtain ⟨pos, hle, hP⟩ := ih (start + 30) (slotStep busy preferences dayEnd start st)
            (hstep start st h1 (by omega) (by omega) h)
          exact ⟨pos, by omega, hP⟩
    · rw [if_neg h1]
      exact ⟨start, le_refl _, h⟩

theorem runSlots_preserves_state (busy : List BusyInterval) (preferences : SchedulePreferences)
    (P : AllocState → Prop)
    (hstep : ∀ dayEnd start st, P st → P (slotStep busy preferences dayEnd start st)) :
    ∀ (dayEnd : Int) (fuel : Nat) (start : Int) (st : AllocState),
      P st → P (runSlots busy preferences dayEnd fuel start st) := by
  intro dayEnd fuel
  induction fuel with
  | zero => exact fun start st h => h
  | succ fuel ih =>
    intro start st h
    unfold runSlots
    by_cases h1 : start < dayEnd
    · rw [if_pos h1]
      by_cases h2 : start + 30 > dayEnd
      · rw [if_pos h2]; exact h
      · rw [if_neg h2]
        by_cases h3 : st.workedMinutesToday ≥ preferences.maxWorkMinutesPerDay
        · rw [if_pos h3]; exact h
        · rw [if_neg h3]
          exact ih (start + 30) _ (hstep dayEnd start st h)
    · rw [if_neg h1]; exact h

theorem runDay_preserves_state (busy : List BusyInterval) (preferences : SchedulePreferences)
    (schedulingStart : Int) (P : AllocState → Prop)
    (hstep : ∀ dayEnd start st, P st → P (slotStep busy preferences dayEnd start st))
    (hcnt : ∀ st w f, P st →
      P { st with workedMinutesToday := w, focusMinutesSinceBreak := f }) :
    ∀ (day : Int) (st : AllocState), P st → P (runDay busy preferences schedulingStart day st) := by
  intro day st h
  unfold runDay
  by_cases h1 : ¬ (findRule preferences (getDay day)).enabled = true
  · rw [if_pos h1]; exact h
  · rw [if_neg h1]
    exact runSlots_preserves_state busy preferences P hstep _ _ _ _ (hcnt st 0 0 h)

theorem foldDays_preserves_state (busy : List BusyInterval) (preferences : SchedulePreferences)
    (schedulingStart : Int) (P : AllocState → Prop)
    (hstep : ∀ dayEnd start st, P st → P (slotStep busy preferences dayEnd start st))
    (hcnt : ∀ st w f, P st →
      P { st with workedMinutesToday := w, focusMinutesSinceBreak := f }) :
    ∀ (days : List Int) (st : AllocState), P st →
      P (days.foldl (fun st day => runDay busy preferences schedulingStart day st) st) := by
  intro days
  induction days with
  | nil => exact fun st h => h
  | cons day rest ih =>
    intro st h
    exact ih _ (runDay_preserves_state busy preferences schedulingStart P hstep hcnt day st h)

theorem pushBlock_blocks (st : AllocState) (task : QItem) (start minutes : Int) :
    (pushBlock st task start minutes).blocks = st.blocks ++ [mkBlock task start minutes] := rfl

theorem pushBlock_planned (st : AllocState) (task : QItem) (start minutes : Int) :
    (pushBlock st task start minutes).plannedBusyIntervals =
      st.plannedBusyIntervals ++ [{ startISO := some start, endISO := some (start + minutes) }] := rfl

theorem bStart_mkBlock (task : QItem) (start minutes : Int) :
    bStart (mkBlock task start minutes) = start := rfl

theorem bEnd_mkBlock (task : QItem) (start minutes : Int) :
    bEnd (mkBlock task start minutes) = start + minutes := rfl

theorem mem_getLast?_mem {α : Type} (l : List α) (x : α) (h : l.getLast? = some x) : x ∈ l := by
  obtain ⟨hne, rfl⟩ := List.mem_getLast?_eq_getLast h
  exact List.getLast_mem hne

/-- Pushing a block whose interval fits the day, is nonempty, and is disjoint
from every already-emitted block preserves the block invariant. -/
theorem pushBlock_inv (st : AllocState) (task : QItem) (start minutes dayEnd : Int)
    (hmin : 0 < minutes) (hend : start + minutes ≤ dayEnd)
    (hB : BlocksBase st)
    (hpos : ∀ b ∈ st.blocks, bStart b ≤ start ∧ bEnd b ≤ dayEnd)
    (hfree : ∀ b ∈ st.blocks, ¬(start < bEnd b ∧ start + minutes > bStart b)) :
    BlocksBase (pushBlock st task start minutes) ∧
    ∀ b ∈ (pushBlock st task start minutes).blocks, bStart b ≤ start ∧ bEnd b ≤ dayEnd := by
  obtain ⟨hsome, hlt, hmem, hchain⟩ := hB
  have hnew_mem : ∀ b ∈ (pushBlock st task start minutes).blocks,
      b ∈ st.blocks ∨ b = mkBlock task start minutes := by
    intro b hb
    rw [pushBlock_blocks] at hb
    rcases List.mem_append.mp hb with h | h
    · exact Or.inl h
    · exact Or.inr (List.mem_singleton.mp h)
  refine ⟨⟨?_, ?_, ?_, ?_⟩, ?_⟩
  · intro b hb
    rcases hnew_mem b hb with h | rfl
    · exact hsome b h
    · exact ⟨rfl, rfl⟩
  · intro b hb
    rcases hnew_mem b hb with h | rfl
    · exact hlt b h
    · rw [bStart_mkBlock, bEnd_mkBlock]
      omega
  · intro b hb
    rw [pushBlock_planned]
    rcases hnew_mem b hb with h | rfl
    · exact List.mem_append_left _ (hmem b h)
    · rw [bStart_mkBlock, bEnd_mkBlock]
      exact List.mem_append_right _ (List.mem_singleton.mpr rfl)
  · rw [pushBlock_blocks]
    rw [List.chain'_append]
    refine ⟨hchain, List.chain'_singleton _, ?_⟩
    intro x hx y hy
    simp only [List.head?_cons, Option.mem_def, Option.some.injEq] at hy
    subst hy
    have hxmem : x ∈ st.blocks := mem_getLast?_mem _ _ hx
    rw [bStart_mkBlock]
    have h1 := hfree x hxmem
    have h2 := (hpos x hxmem).1
    have h3 := hlt x hxmem
    by_contra hcon
    exact h1 ⟨by omega, by omega⟩
  · intro b hb
    rcases hnew_mem b hb with h | rfl
    · exact hpos b h
    · rw [bStart_mkBlock, bEnd_mkBlock]
      omega

/-- One slot iteration preserves the block invariant (the slot must fit the
day, which the loop's own guard ensures). -/
theorem slotStep_blocks_inv (busy : List BusyInterval) (preferences : SchedulePreferences)
    (dayEnd start : Int) (st : AllocState)
    (h30 : start + 30 ≤ dayEnd)
    (hB : BlocksBase st) (hQ : QueueWF st)
    (hpos : ∀ b ∈ st.blocks, bStart b ≤ start ∧ bEnd b ≤ dayEnd) :
    BlocksBase (slotStep busy preferences dayEnd start st) ∧
    QueueWF (slotStep busy preferences dayEnd start st) ∧
    ∀ b ∈ (slotStep busy preferences dayEnd start st).blocks,
      bStart b ≤ start + 30 ∧ bEnd b ≤ dayEnd := by
  have hposw : ∀ (st' : AllocState), (∀ b ∈ st'.blocks, bStart b ≤ start ∧ bEnd b ≤ dayEnd) →
      ∀ b ∈ st'.blocks, bStart b ≤ start + 30 ∧ bEnd b ≤ dayEnd := by
    intro st' h b hb
    exact ⟨by have := (h b hb).1; omega, (h b hb).2⟩
  simp only [slotStep]
  by_cases hb : isOverlappingBusyWindow start (start + 30) busy = true
  · rw [if_pos hb]
    exact ⟨hB, hQ, hposw st hpos⟩
  · rw [if_neg hb]
    by_cases hp : isOverlappingBusyWindow start (start + 30) st.plannedBusyIntervals = true
    · rw [if_pos hp]
      exact ⟨⟨hB.1, hB.2.1, hB.2.2.1, hB.2.2.2⟩, hQ, hposw st hpos⟩
    · rw [if_neg hp]
      by_cases hf : st.focusMinutesSinceBreak ≥
          min preferences.breakEveryFocusMinutes preferences.maxContinuousFocusMinutes
      · rw [if_pos hf]
        refine ⟨⟨hB.1, hB.2.1, ?_, hB.2.2.2⟩, hQ, hposw st hpos⟩
        intro b hbm
        exact List.mem_append_left _ (hB.2.2.1 b hbm)
      · rw [if_neg hf]
        rcases hfind : (candidateIndices preferences st.queue st.workedMinutesToday start
            (start + 30)).find? (fun i => placeableAt busy st start dayEnd (qget st.queue i)) with _ | i
        · exact ⟨hB, hQ, hposw st hpos⟩
        · have hpred := List.find?_some hfind
          have hmem := List.mem_of_find?_eq_some hfind
          obtain ⟨hilen, hrem, hdl, hnb, hcap⟩ :=
            candidateIndices_spec preferences st.queue st.workedMinutesToday start (start + 30) i hmem
          have hQmem : qget st.queue i ∈ st.queue := qget_mem st.queue i hilen
          have htot30 : 30 ≤ (qget st.queue i).totalRoundedMinutes := hQ _ hQmem
          dsimp only
          by_cases hsplit : (qget st.queue i).isSplittable = true
          · rw [if_neg (by simp [hsplit])]
            have hfree : ∀ b ∈ st.blocks, ¬(start < bEnd b ∧ start + 30 > bStart b) := by
              intro b hbm
              have hiv := hB.2.2.1 b hbm
              have := isOverlappingBusyWindow_false_spec start (start + 30)
                st.plannedBusyIntervals (by simpa using hp)
              exact this _ hiv (bStart b) (bEnd b) rfl rfl
            have hpush := pushBlock_inv st (qget st.queue i) start 30 dayEnd (by omega) h30 hB hpos hfree
            refine ⟨⟨hpush.1.1, hpush.1.2.1, hpush.1.2.2.1, hpush.1.2.2.2⟩, ?_, ?_⟩
            · intro q hq
              rcases List.mem_or_eq_of_mem_set hq with h | rfl
              · exact hQ q h
              · exact htot30
            · exact hposw _ hpush.2
          · rw [if_pos (by simp [hsplit])]
            have hns : (qget st.queue i).isSplittable = false := by
              cases h' : (qget st.queue i).isSplittable
              · rfl
              · exact absurd h' hsplit
            obtain ⟨hremtot, hcanfit⟩ :=
              placeableAt_nonsplittable_spec busy st start dayEnd (qget st.queue i) hns hpred
            obtain ⟨hend, hdl2, hslots⟩ := canFitContiguousBlock_spec busy st.plannedBusyIntervals
              start dayEnd ((qget st.queue i).totalRoundedMinutes) ((qget st.queue i).deadlineMs)
              ((qget st.queue i).notBeforeMs) hcanfit
            have hfree : ∀ b ∈ st.blocks,
                ¬(start < bEnd b ∧ start + (qget st.queue i).totalRoundedMinutes > bStart b) := by
              intro b hbm
              have hiv := hB.2.2.1 b hbm
              refine not_overlap_slot_cover start ((qget st.queue i).totalRoundedMinutes)
                (bStart b) (bEnd b) ((intCeilDiv ((qget st.queue i).totalRoundedMinutes) 30).toNat)
                (by omega) ?_ (hB.2.1 b hbm) ?_
              · unfold intCeilDiv
                omega
              · intro k hk
                have hsl := (hslots k hk).2
                have := isOverlappingBusyWindow_false_spec _ _ _ hsl
                exact this _ hiv (bStart b) (bEnd b) rfl rfl
            have hpush := pushBlock_inv st (qget st.queue i) start
              ((qget st.queue i).totalRoundedMinutes) dayEnd (by omega) hend hB hpos hfree
            refine ⟨⟨hpush.1.1, hpush.1.2.1, hpush.1.2.2.1, hpush.1.2.2.2⟩, ?_, ?_⟩
            · intro q hq
              rcases List.mem_or_eq_of_mem_set hq with h | rfl
              · exact hQ q h
              · exact htot30
            · exact hposw _ hpush.2

theorem parseDayRuleEntry_bounds (item : JsValue) :
    0 ≤ (parseDayRuleEntry item).startHour ∧ (parseDayRuleEntry item).startHour ≤ 23 ∧
    1 ≤ (parseDayRuleEntry item).endHour ∧ (parseDayRuleEntry item).endHour ≤ 24 := by
  unfold parseDayRuleEntry
  dsimp only
  omega

theorem parseDayRulesArray_ruleWF (items : List JsValue) :
    ∀ r ∈ parseDayRulesArray items, ruleWF r := by
  intro r hr
  unfold parseDayRulesArray at hr
  rcases List.mem_map.mp hr with ⟨r0, hr0, rfl⟩
  obtain ⟨hr1, _⟩ := List.mem_filter.mp hr0
  rcases List.mem_map.mp hr1 with ⟨item, _, rfl⟩
  have hb := parseDayRuleEntry_bounds item
  unfold ruleWF fixInvertedWindow
  split
  · simp
  · rename_i h
    omega

theorem parseLegacyRules_ruleWF (raw : JsValue) :
    ∀ r ∈ parseLegacyRules raw, ruleWF r := by
  intro r hr
  unfold parseLegacyRules at hr
  rcases List.mem_map.mp hr with ⟨w, _, rfl⟩
  unfold ruleWF
  simp only
  split_ifs with h <;> omega

theorem defaultDayRule_ruleWF (w : Int) : ruleWF (defaultDayRule w) := by
  simp [ruleWF, defaultDayRule]

theorem mergedDayRule_ruleWF (parsed : List DaySchedulePreference) (w : Int)
    (hwf : ∀ r ∈ parsed, ruleWF r) :
    ruleWF (mergedDayRule parsed w) := by
  unfold mergedDayRule
  cases hlast : (parsed.filter (fun r => r.weekday == w)).getLast? with
  | none => exact defaultDayRule_ruleWF w
  | some r =>
    have hmem := mem_getLast?_mem _ _ hlast
    exact hwf _ (List.mem_filter.mp hmem).1

theorem normalizedDayRules_ruleWF (value : JsValue) :
    ∀ r ∈ normalizedDayRules value, ruleWF r := by
  intro r hr
  unfold normalizedDayRules at hr
  have hwf : ∀ r ∈ normalizedParsedRules value, ruleWF r := by
    intro r hr
    unfold normalizedParsedRules at hr
    revert hr
    split
    · exact fun hr => parseDayRulesArray_ruleWF _ r hr
    · exact fun hr => parseLegacyRules_ruleWF _ r hr
  dsimp only at hr
  split at hr
  · rcases List.mem_map.mp hr with ⟨w, _, rfl⟩
    exact mergedDayRule_ruleWF _ _ hwf
  · simp only [DEFAULT_SCHEDULE_PREFERENCES] at hr
    rcases List.mem_map.mp hr with ⟨w, _, rfl⟩
    exact defaultDayRule_ruleWF _

theorem normalize_findRule_ruleWF (value : JsValue) (w : Int) :
    ruleWF (findRule (normalizeSchedulePreferences value) w) := by
  have hall : ∀ r ∈ (normalizeSchedulePreferences value).dayRules, ruleWF r := by
    unfold normalizeSchedulePreferences
    split
    · intro r hr
      rcases List.mem_map.mp hr with ⟨w', _, rfl⟩
      exact defaultDayRule_ruleWF _
    · exact fun r hr => normalizedDayRules_ruleWF value r hr
  unfold findRule
  cases hfind : (normalizeSchedulePreferences value).dayRules.find?
      (fun rule => rule.weekday == w) with
  | none => exact defaultDayRule_ruleWF w
  | some r => exact hall r (List.mem_of_find?_eq_some hfind)

theorem buildQueue_wf (now : Int) (analysis : List TaskAnalysis) :
    ∀ q ∈ buildQueue now analysis, 30 ≤ q.totalRoundedMinutes := by
  intro q hq
  unfold buildQueue at hq
  rcases List.mem_filterMap.mp hq with ⟨task, _, hbuild⟩
  unfold buildQueueItem at hbuild
  split at hbuild
  · cases hbuild
  · cases hbuild
    show 30 ≤ roundedMinutesOf task.estimatedHours
    unfold roundedMinutesOf SCHEDULE_SLOT_MINUTES
    omega

theorem localMidnight_le_self_of_le (a b : Int) (h : a ≤ b) : localMidnight a ≤ localMidnight b := by
  unfold localMidnight
  omega

theorem workDays_pairwise (s : Int) (n : Nat) (preferences : SchedulePreferences) :
    List.Pairwise (fun a b => localMidnight a + 1440 ≤ localMidnight b)
      (workDays s n preferences) := by
  unfold workDays
  apply List.Pairwise.filter
  unfold nextCalendarDays
  rw [List.pairwise_map]
  refine List.Pairwise.imp ?_ (List.pairwise_lt_range n)
  intro i j hij
  have ki : localMidnight (s + 1440 * Int.ofNat i) = localMidnight s + 1440 * Int.ofNat i := by
    unfold localMidnight
    omega
  have kj : localMidnight (s + 1440 * Int.ofNat j) = localMidnight s + 1440 * Int.ofNat j := by
    unfold localMidnight
    omega
  rw [ki, kj]
  simp only [Int.ofNat_eq_coe]
  omega

/-- One day of the walk preserves the block invariant; all blocks end inside
the day (so before the next calendar day's midnight). -/
theorem runDay_blocks_inv (busy : List BusyInterval) (preferences : SchedulePreferences)
    (schedulingStart day : Int)
    (hrule : ruleWF (findRule preferences (getDay day)))
    (st : AllocState)
    (hB : BlocksBase st) (hQ : QueueWF st)
    (hmid : ∀ b ∈ st.blocks, bEnd b ≤ localMidnight day) :
    BlocksBase (runDay busy preferences schedulingStart day st) ∧
    QueueWF (runDay busy preferences schedulingStart day st) ∧
    ∀ b ∈ (runDay busy preferences schedulingStart day st).blocks,
      bEnd b ≤ localMidnight day + 1440 := by
  obtain ⟨hr0, hr1, hr2⟩ := hrule
  simp only [runDay]
  by_cases hen : ¬ (findRule preferences (getDay day)).enabled = true
  · rw [if_pos hen]
    exact ⟨hB, hQ, fun b hb => by have := hmid b hb; omega⟩
  · rw [if_neg hen]
    set dS := localMidnight day + (findRule preferences (getDay day)).startHour * 60 with hdS
    set dE := localMidnight day + (findRule preferences (getDay day)).endHour * 60 with hdE
    set fs := (if isSameLocalDate day schedulingStart = true then max schedulingStart dS else dS)
      with hfs
    have hdSle : dS ≤ fs := by
      rw [hfs]
      split
      · exact le_max_right _ _
      · exact le_refl _
    have init : ∀ b ∈ st.blocks, bStart b ≤ fs ∧ bEnd b ≤ dE := by
      intro b hb
      have h1 := hmid b hb
      have h2 := hB.2.1 b hb
      have h3 : localMidnight day ≤ dS := by rw [hdS]; omega
      have h4 : localMidnight day ≤ dE := by rw [hdE]; omega
      exact ⟨by omega, by omega⟩
    obtain ⟨pos, hle, hP⟩ := runSlots_preserves busy preferences dE
      (fun pos st' => BlocksBase st' ∧ QueueWF st' ∧
        ∀ b ∈ st'.blocks, bStart b ≤ pos ∧ bEnd b ≤ dE)
      (fun start st' _ h30 _ hP =>
        slotStep_blocks_inv busy preferences dE start st' h30 hP.1 hP.2.1 hP.2.2)
      (slotFuel dE fs) fs { st with workedMinutesToday := 0, focusMinutesSinceBreak := 0 }
      ⟨hB, hQ, init⟩
    refine ⟨hP.1, hP.2.1, ?_⟩
    intro b hb
    have h5 := (hP.2.2 b hb).2
    rw [hdE] at h5
    omega

/-- The whole day walk preserves the block invariant, for a day list whose
calendar days strictly increase. -/
theorem foldDays_blocks_inv (busy : List BusyInterval) (preferences : SchedulePreferences)
    (schedulingStart : Int)
    (hrules : ∀ w, ruleWF (findRule preferences w)) :
    ∀ (days : List Int) (st : AllocState),
      List.Pairwise (fun a b => localMidnight a + 1440 ≤ localMidnight b) days →
      BlocksBase st → QueueWF st →
      (∀ b ∈ st.blocks, ∀ d ∈ days, bEnd b ≤ localMidnight d) →
      BlocksBase (days.foldl (fun st day => runDay busy preferences schedulingStart day st) st) ∧
      QueueWF (days.foldl (fun st day => runDay busy preferences schedulingStart day st) st) := by
  intro days
  induction days with
  | nil => exact fun st _ hB hQ _ => ⟨hB, hQ⟩
  | cons day rest ih =>
    intro st hpw hB hQ hmid
    rw [List.foldl_cons]
    obtain ⟨hgap, hpw'⟩ := List.pairwise_cons.mp hpw
    have h1 := runDay_blocks_inv busy preferences schedulingStart day (hrules (getDay day)) st
      hB hQ (fun b hb => hmid b hb day (List.mem_cons_self _ _))
    refine ih _ hpw' h1.1 h1.2.1 ?_
    intro b hb d hd
    have h2 := h1.2.2 b hb
    have h3 := hgap d hd
    omega

theorem mergeAux_wf (last : ScheduledBlock) (l : List ScheduledBlock)
    (hsome : ∀ b ∈ last :: l, b.startISO = some (bStart b) ∧ b.endISO = some (bEnd b))
    (hlt : ∀ b ∈ last :: l, bStart b < bEnd b)
    (hchain : List.Chain' (fun a b => bEnd a ≤ bStart b) (last :: l)) :
    (∀ b ∈ mergeAux last l, b.startISO = some (bStart b) ∧ b.endISO = some (bEnd b)) ∧
    (∀ b ∈ mergeAux last l, bStart b < bEnd b) ∧
    List.Chain' (fun a b => bEnd a ≤ bStart b) (mergeAux last l) := by
  induction l generalizing last with
  | nil => exact ⟨hsome, hlt, hchain⟩
  | cons b rest ih =>
    simp only [mergeAux]
    by_cases hm : mergeCond last b
    · rw [if_pos hm]
      have hlastlt := hlt last (List.mem_cons_self _ _)
      have hblt := hlt b (List.mem_cons.mpr (Or.inr (List.mem_cons_self _ _)))
      have hbound : bEnd last = bStart b := by
        unfold bEnd bStart
        rw [hm.2.1]
      have hm_start : bStart (mergeInto last b) = bStart last := rfl
      have hm_end : bEnd (mergeInto last b) = bEnd b := rfl
      apply ih (mergeInto last b)
      · intro x hx
        rcases List.mem_cons.mp hx with rfl | hx'
        · refine ⟨?_, ?_⟩
          · show (mergeInto last b).startISO = some (bStart (mergeInto last b))
            rw [hm_start]
            exact (hsome last (List.mem_cons_self _ _)).1
          · show (mergeInto last b).endISO = some (bEnd (mergeInto last b))
            rw [hm_end]
            exact (hsome b (List.mem_cons.mpr (Or.inr (List.mem_cons_self _ _)))).2
        · exact hsome x (List.mem_cons.mpr (Or.inr (List.mem_cons.mpr (Or.inr hx'))))
      · intro x hx
        rcases List.mem_cons.mp hx with rfl | hx'
        · rw [hm_start, hm_end]
          omega
        · exact hlt x (List.mem_cons.mpr (Or.inr (List.mem_cons.mpr (Or.inr hx'))))
      · obtain ⟨h1, h2⟩ := List.chain'_cons.mp hchain
        rw [List.chain'_cons'] at h2 ⊢
        refine ⟨?_, h2.2⟩
        intro y hy
        rw [hm_end]
        exact h2.1 y hy
    · rw [if_neg hm]
      have hsub : ∀ x ∈ b :: rest, x ∈ last :: b :: rest :=
        fun x hx => List.mem_cons.mpr (Or.inr hx)
      obtain ⟨hrel, hchain2⟩ := List.chain'_cons.mp hchain
      have ihr := ih b (fun x hx => hsome x (hsub x hx)) (fun x hx => hlt x (hsub x hx)) hchain2
      refine ⟨?_, ?_, ?_⟩
      · intro x hx
        rcases List.mem_cons.mp hx with rfl | hx'
        · exact hsome _ (List.mem_cons_self _ _)
        · exact ihr.1 x hx'
      · intro x hx
        rcases List.mem_cons.mp hx with rfl | hx'
        · exact hlt _ (List.mem_cons_self _ _)
        · exact ihr.2.1 x hx'
      · rw [List.chain'_cons']
        refine ⟨?_, ihr.2.2⟩
        intro y hy
        obtain ⟨hd, tl, heq, h1, h2, h3⟩ := mergeAux_head b rest
        rw [heq] at hy
        simp only [List.head?_cons, Option.mem_def, Option.some.injEq] at hy
        have hbs : bStart y = bStart b := by
          unfold bStart
          rw [← hy, h2]
        rw [hbs]
        exact hrel

theorem chain_blocks_le (l : List ScheduledBlock) :
    ∀ (hd : ScheduledBlock),
      (∀ b ∈ hd :: l, bStart b < bEnd b) →
      List.Chain' (fun a b => bEnd a ≤ bStart b) (hd :: l) →
      ∀ b ∈ l, bEnd hd ≤ bStart b := by
  induction l with
  | nil =>
    intro hd _ _ b hb
    cases hb
  | cons c rest ih =>
    intro hd hlt hchain b hb
    obtain ⟨h1, h2⟩ := List.chain'_cons.mp hchain
    rcases List.mem_cons.mp hb with rfl | hb'
    · exact h1
    · have h3 := ih c (fun x hx => hlt x (List.mem_cons.mpr (Or.inr hx))) h2 b hb'
      have h4 := hlt c (List.mem_cons.mpr (Or.inr (List.mem_cons_self _ _)))
      omega

theorem chain_pairwise_nonoverlap (l : List ScheduledBlock)
    (hlt : ∀ b ∈ l, bStart b < bEnd b)
    (hchain : List.Chain' (fun a b => bEnd a ≤ bStart b) l) :
    List.Pairwise (fun a b => ¬(bStart a < bEnd b ∧ bEnd a > bStart b)) l := by
  induction l with
  | nil => exact List.Pairwise.nil
  | cons hd rest ih =>
    rw [List.pairwise_cons]
    constructor
    · intro b hb
      have h1 := chain_blocks_le rest hd hlt hchain b hb
      intro hcon
      omega
    · exact ih (fun x hx => hlt x (List.mem_cons.mpr (Or.inr hx))) hchain.tail

/-- C1: no double-booking — the output of `generateWeeklySchedule` is pairwise
non-overlapping (in the `start < otherEnd && end > otherStart` half-open
sense, merged blocks included, and every output block has parseable
timestamps), and no output block overlaps any caller-supplied busy interval
whose endpoints parse to valid instants. -/
theorem generateWeeklySchedule_no_double_booking (now : Int) (analysis : List TaskAnalysis)
    (busyIntervals : List BusyInterval) (preferencesInput : JsValue) :
    List.Pairwise (fun a b => ¬(bStart a < bEnd b ∧ bEnd a > bStart b))
      (generateWeeklySchedule now analysis busyIntervals preferencesInput) ∧
    (∀ b ∈ generateWeeklySchedule now analysis busyIntervals preferencesInput,
      b.startISO = some (bStart b) ∧ b.endISO = some (bEnd b)) ∧
    (∀ b ∈ generateWeeklySchedule now analysis busyIntervals preferencesInput,
      ∀ iv ∈ busyIntervals, ∀ bs be, iv.startISO = some bs → iv.endISO = some be →
        ¬(bStart b < be ∧ bEnd b > bs)) := by
  simp only [generateWeeklySchedule]
  set preferences := normalizeSchedulePreferences preferencesInput with hprefs
  set schedulingStart := getSchedulingStart now preferences with hss
  set days := workDays schedulingStart (planningDays now schedulingStart analysis).toNat preferences
    with hdays
  set st0 : AllocState :=
    { queue := buildQueue now analysis, blocks := [], plannedBusyIntervals := [],
      workedMinutesToday := 0, focusMinutesSinceBreak := 0 } with hst0
  set finalState := days.foldl
    (fun st day => runDay busyIntervals preferences schedulingStart day st) st0 with hfinal
  have hBinit : BlocksBase st0 := by
    refine ⟨?_, ?_, ?_, ?_⟩ <;>
      first
        | exact fun b hb => (List.not_mem_nil b hb).elim
        | exact List.chain'_nil
  have hfold := foldDays_blocks_inv busyIntervals preferences schedulingStart
    (fun w => normalize_findRule_ruleWF preferencesInput w) days st0
    (workDays_pairwise _ _ _) hBinit (buildQueue_wf now analysis)
    (fun b hb => (List.not_mem_nil b hb).elim)
  obtain ⟨⟨hsome, hlt2, _, hchain⟩, _⟩ := hfold
  have hmerged :
      (∀ b ∈ mergeSequentialBlocks finalState.blocks,
        b.startISO = some (bStart b) ∧ b.endISO = some (bEnd b)) ∧
      (∀ b ∈ mergeSequentialBlocks finalState.blocks, bStart b < bEnd b) ∧
      List.Chain' (fun a b => bEnd a ≤ bStart b) (mergeSequentialBlocks finalState.blocks) := by
    rcases hfs : finalState.blocks with _ | ⟨b, rest⟩
    · refine ⟨?_, ?_, ?_⟩ <;>
        first
          | exact fun b hb => (List.not_mem_nil b hb).elim
          | exact List.chain'_nil
    · rw [show mergeSequentialBlocks (b :: rest) = mergeAux b rest from rfl]
      rw [hfs] at hsome hlt2 hchain
      exact mergeAux_wf b rest hsome hlt2 hchain
  refine ⟨?_, ?_, ?_⟩
  · apply List.Pairwise.filter
    exact chain_pairwise_nonoverlap _ hmerged.2.1 hmerged.2.2
  · intro b hb
    exact hmerged.1 b (List.mem_of_mem_filter hb)
  · intro b hb iv hiv bs be h1 h2
    obtain ⟨hbm, hbpred⟩ := List.mem_filter.mp hb
    have hov : blockOverlapsBusy b busyIntervals = false := by
      simpa using hbpred
    have hsome2 := hmerged.1 b hbm
    unfold blockOverlapsBusy at hov
    rw [hsome2.1, hsome2.2] at hov
    exact isOverlappingBusyWindow_false_spec _ _ _ hov iv hiv bs be h1 h2

/-! ## Deadline respect (claim C3) -/

theorem qget_set_self (l : List QItem) (i : Nat) (x : QItem) (h : i < l.length) :
    qget (l.set i x) i = x := by
  unfold qget
  rw [List.get?_set_eq_of_lt x (by simpa using h)]
  rfl

theorem qget_set_other (l : List QItem) (i j : Nat) (x : QItem) (h : i ≠ j) :
    qget (l.set i x) j = qget l j := by
  unfold qget
  rw [List.get?_set_ne x l h]

theorem buildQueueItem_some_spec (now : Int) (task : TaskAnalysis) (q : QItem)
    (h : buildQueueItem now task = some q) :
    q.id = task.id ∧ q.deadlineMs = parseDeadline now task.deadline ∧
    q.isSplittable = decide (task.isSplittable ≠ some false) ∧
    q.totalRoundedMinutes = roundedMinutesOf task.estimatedHours := by
  unfold buildQueueItem at h
  split at h
  · cases h
  · cases h
    exact ⟨rfl, rfl, rfl, rfl⟩

theorem buildQueue_mem_spec (now : Int) (analysis : List TaskAnalysis) :
    ∀ q ∈ buildQueue now analysis, ∃ task ∈ analysis, buildQueueItem now task = some q := by
  intro q hq
  unfold buildQueue at hq
  rcases List.mem_filterMap.mp hq with ⟨task, htm, hbuild⟩
  exact ⟨task, htm, hbuild⟩

theorem buildQueue_ids_sublist (now : Int) (analysis : List TaskAnalysis) :
    ((buildQueue now analysis).map (fun q => q.id)).Sublist (analysis.map (fun t => t.id)) := by
  unfold buildQueue
  induction analysis with
  | nil => exact List.Sublist.refl _
  | cons task rest ih =>
    rw [List.filterMap_cons]
    cases hb : buildQueueItem now task with
    | none =>
      rw [List.map_cons]
      exact List.Sublist.cons _ ih
    | some q =>
      rw [List.map_cons, List.map_cons]
      have hid : q.id = task.id := (buildQueueItem_some_spec now task q hb).1
      rw [hid]
      exact List.Sublist.cons₂ _ ih

theorem buildQueue_ids_nodup (now : Int) (analysis : List TaskAnalysis)
    (hnodup : (analysis.map (fun t => t.id)).Nodup) :
    ((buildQueue now analysis).map (fun q => q.id)).Nodup :=
  hnodup.sublist (buildQueue_ids_sublist now analysis)

theorem slotStep_deadline_inv (busy : List BusyInterval) (preferences : SchedulePreferences)
    (queue₀ : List QItem)
    (hnodup : (queue₀.map (fun q => q.id)).Nodup)
    (dayEnd start : Int) (st : AllocState)
    (hI : DeadlineInv queue₀ st) :
    DeadlineInv queue₀ (slotStep busy preferences dayEnd start st) := by
  obtain ⟨hlen, hstat, hprov, hdl⟩ := hI
  simp only [slotStep]
  by_cases hb : isOverlappingBusyWindow start (start + 30) busy = true
  · rw [if_pos hb]
    exact ⟨hlen, hstat, hprov, hdl⟩
  · rw [if_neg hb]
    by_cases hp : isOverlappingBusyWindow start (start + 30) st.plannedBusyIntervals = true
    · rw [if_pos hp]
      exact ⟨hlen, hstat, hprov, hdl⟩
    · rw [if_neg hp]
      by_cases hf : st.focusMinutesSinceBreak ≥
          min preferences.breakEveryFocusMinutes preferences.maxContinuousFocusMinutes
      · rw [if_pos hf]
        exact ⟨hlen, hstat, hprov, hdl⟩
      · rw [if_neg hf]
        rcases hfind : (candidateIndices preferences st.queue st.workedMinutesToday start
            (start + 30)).find? (fun i => placeableAt busy st start dayEnd (qget st.queue i))
          with _ | i
        · exact ⟨hlen, hstat, hprov, hdl⟩
        · have hpred := List.find?_some hfind
          have hmem := List.mem_of_find?_eq_some hfind
          obtain ⟨hilen, hrem, hdlslot, hnbf, hcap⟩ :=
            candidateIndices_spec preferences st.queue st.workedMinutesToday start (start + 30) i hmem
          have hilen₀ : i < queue₀.length := by omega
          have hstat_i := hstat i hilen₀
          have hinj := List.inj_on_of_nodup_map hnodup
          have hq0mem : qget queue₀ i ∈ queue₀ := qget_mem queue₀ i hilen₀
          dsimp only
          -- common pieces for both placement shapes
          have hqueue : ∀ (x : QItem), queueStatic x (qget queue₀ i) →
              (∀ j, j < queue₀.length → queueStatic (qget (st.queue.set i x) j) (qget queue₀ j)) := by
            intro x hx j hj
            by_cases hij : i = j
            · subst hij
              rw [qget_set_self st.queue i x (by omega)]
              exact hx
            · rw [qget_set_other st.queue i j x hij]
              exact hstat j hj
          have hblocks : ∀ (minutes : Int), start + minutes ≤ (qget st.queue i).deadlineMs →
              (∀ b ∈ st.blocks ++ [mkBlock (qget st.queue i) start minutes],
                ∃ j, j < queue₀.length ∧ b.taskId = (qget queue₀ j).id) ∧
              (∀ b ∈ st.blocks ++ [mkBlock (qget st.queue i) start minutes],
                ∀ q₀ ∈ queue₀, b.taskId = q₀.id → bEnd b ≤ q₀.deadlineMs) := by
            intro minutes hmin
            constructor
            · intro b hb
              rcases List.mem_append.mp hb with h | h
              · exact hprov b h
              · rw [List.mem_singleton.mp h]
                exact ⟨i, hilen₀, hstat_i.1⟩
            · intro b hb q₀ hq₀ hid
              rcases List.mem_append.mp hb with h | h
              · exact hdl b h q₀ hq₀ hid
              · rw [List.mem_singleton.mp h] at hid ⊢
                have hident : q₀ = qget queue₀ i := by
                  apply hinj hq₀ hq0mem
                  show q₀.id = (qget queue₀ i).id
                  rw [← hid]
                  exact hstat_i.1
                rw [bEnd_mkBlock, hident, ← hstat_i.2.1]
                exact hmin
          by_cases hsplit : (qget st.queue i).isSplittable = true
          · rw [if_neg (by simp [hsplit])]
            have hb30 := hblocks 30 (by omega)
            exact ⟨by simpa using hlen, hqueue _ hstat_i, hb30.1, hb30.2⟩
          · rw [if_pos (by simp [hsplit])]
            have hns : (qget st.queue i).isSplittable = false := by
              cases h' : (qget st.queue i).isSplittable
              · rfl
              · exact absurd h' hsplit
            obtain ⟨hremtot, hcanfit⟩ :=
              placeableAt_nonsplittable_spec busy st start dayEnd (qget st.queue i) hns hpred
            obtain ⟨hend, hdl2, _⟩ := canFitContiguousBlock_spec busy st.plannedBusyIntervals
              start dayEnd ((qget st.queue i).totalRoundedMinutes) ((qget st.queue i).deadlineMs)
              ((qget st.queue i).notBeforeMs) hcanfit
            have hbT := hblocks ((qget st.queue i).totalRoundedMinutes) hdl2
            exact ⟨by simpa using hlen, hqueue _ hstat_i, hbT.1, hbT.2⟩

/-- Merging preserves any property of a block's task id and end timestamp:
a merged block keeps one constituent's task id and takes the last
constituent's end, and merging only combines blocks with equal task ids. -/
theorem mergeAux_taskEnd_prop (Φ : String → Option Int → Prop) :
    ∀ (l : List ScheduledBlock) (last : ScheduledBlock),
      (∀ b ∈ last :: l, Φ b.taskId b.endISO) →
      ∀ b ∈ mergeAux last l, Φ b.taskId b.endISO := by
  intro l
  induction l with
  | nil =>
    intro last h b hb
    rw [List.mem_singleton.mp hb]
    exact h last (List.mem_cons_self _ _)
  | cons c rest ih =>
    intro last h b hb
    simp only [mergeAux] at hb
    by_cases hm : mergeCond last c
    · rw [if_pos hm] at hb
      refine ih (mergeInto last c) ?_ b hb
      intro x hx
      rcases List.mem_cons.mp hx with rfl | hx'
      · have hc := h c (List.mem_cons.mpr (Or.inr (List.mem_cons_self _ _)))
        show Φ (mergeInto last c).taskId (mergeInto last c).endISO
        have ht : (mergeInto last c).taskId = c.taskId := hm.1
        rw [ht]
        exact hc
      · exact h x (List.mem_cons.mpr (Or.inr (List.mem_cons.mpr (Or.inr hx'))))
    · rw [if_neg hm] at hb
      rcases List.mem_cons.mp hb with rfl | hb'
      · exact h _ (List.mem_cons_self _ _)
      · exact ih c (fun x hx => h x (List.mem_cons.mpr (Or.inr hx))) b hb'

theorem mergeSequentialBlocks_taskEnd_prop (Φ : String → Option Int → Prop)
    (l : List ScheduledBlock) (h : ∀ b ∈ l, Φ b.taskId b.endISO) :
    ∀ b ∈ mergeSequentialBlocks l, Φ b.taskId b.endISO := by
  cases l with
  | nil =>
    intro b hb
    cases hb
  | cons x rest => exact mergeAux_taskEnd_prop Φ rest x h

/-- C3: deadline respect — when task ids are unique (as the data model
requires), every output block attributed to a task ends no later than that
task's parsed deadline (an unparseable deadline parsing to "now"). -/
theorem generateWeeklySchedule_deadline_respect (now : Int) (analysis : List TaskAnalysis)
    (busyIntervals : List BusyInterval) (preferencesInput : JsValue)
    (hnodup : (analysis.map (fun t => t.id)).Nodup) :
    ∀ task ∈ analysis, ∀ b ∈ generateWeeklySchedule now analysis busyIntervals preferencesInput,
      b.taskId = task.id → bEnd b ≤ parseDeadline now task.deadline := by
  intro task htask b hb hid
  have hnodup₀ := buildQueue_ids_nodup now analysis hnodup
  simp only [generateWeeklySchedule] at hb
  set queue₀ := buildQueue now analysis with hq₀
  set preferences := normalizeSchedulePreferences preferencesInput with hprefs
  set schedulingStart := getSchedulingStart now preferences with hss
  set days := workDays schedulingStart (planningDays now schedulingStart analysis).toNat preferences
    with hdays
  set st0 : AllocState :=
    { queue := queue₀, blocks := [], plannedBusyIntervals := [],
      workedMinutesToday := 0, focusMinutesSinceBreak := 0 } with hst0
  set finalState := days.foldl
    (fun st day => runDay busyIntervals preferences schedulingStart day st) st0 with hfinal
  have hfold : DeadlineInv queue₀ finalState := by
    refine foldDays_preserves_state busyIntervals preferences schedulingStart (DeadlineInv queue₀)
      (fun dayEnd start st h =>
        slotStep_deadline_inv busyIntervals preferences queue₀ hnodup₀ dayEnd start st h)
      (fun st w f h => h) days st0 ?_
    exact ⟨rfl, fun i hi => ⟨rfl, rfl, rfl, rfl⟩,
      fun b hb => (List.not_mem_nil b hb).elim,
      fun b hb => (List.not_mem_nil b hb).elim⟩
  obtain ⟨_, _, hprov, hdl⟩ := hfold
  have hmerge := mergeSequentialBlocks_taskEnd_prop
    (fun id e => (∃ j, j < queue₀.length ∧ id = (qget queue₀ j).id) ∧
      ∀ q₀ ∈ queue₀, id = q₀.id → e.getD 0 ≤ q₀.deadlineMs)
    finalState.blocks (fun b hb => ⟨hprov b hb, fun q₀ h1 h2 => hdl b hb q₀ h1 h2⟩)
  have hbm := List.mem_of_mem_filter hb
  have hΦ := hmerge b hbm
  cases hbuild : buildQueueItem now task with
  | some q =>
    have hqmem : q ∈ queue₀ := by
      rw [hq₀]
      exact List.mem_filterMap.mpr ⟨task, htask, hbuild⟩
    obtain ⟨hqid, hqdl, _, _⟩ := buildQueueItem_some_spec now task q hbuild
    have h2 := hΦ.2 q hqmem (by rw [hid, hqid])
    rw [hqdl] at h2
    exact h2
  | none =>
    exfalso
    obtain ⟨j, hj, hjid⟩ := hΦ.1
    have hjmem : qget queue₀ j ∈ queue₀ := qget_mem queue₀ j hj
    obtain ⟨task2, htask2, hbuild2⟩ := buildQueue_mem_spec now analysis _ hjmem
    have hid2 : (qget queue₀ j).id = task2.id := (buildQueueItem_some_spec now task2 _ hbuild2).1
    have heq : task2.id = task.id := hid2.symm.trans (hjid.symm.trans hid)
    have hteq := List.inj_on_of_nodup_map hnodup htask2 htask heq
    rw [hteq] at hbuild2
    rw [hbuild2] at hbuild
    cases hbuild

/-- C3 witness: at a concrete run (one task, unique ids) the single emitted
block ends before the task's deadline; the run is evaluated to show it is
non-vacuous. -/
theorem generateWeeklySchedule_deadline_respect_witness :
    (∀ b ∈ generateWeeklySchedule 1980 [witnessTask] [] .null,
      b.taskId = witnessTask.id → bEnd b ≤ parseDeadline 1980 witnessTask.deadline) ∧
    (generateWeeklySchedule 1980 [witnessTask] [] .null).length = 1 :=
  ⟨generateWeeklySchedule_deadline_respect 1980 [witnessTask] [] .null (by decide)
    witnessTask (List.mem_singleton.mpr rfl), by decide⟩

/-- C1 witness: the no-double-booking property at a concrete run (one task,
one busy interval covering the first half-hour). -/
theorem generateWeeklySchedule_no_double_booking_witness :
    List.Pairwise (fun a b => ¬(bStart a < bEnd b ∧ bEnd a > bStart b))
      (generateWeeklySchedule 1980 [witnessTask]
        [{ startISO := some 1980, endISO := some 2010 }] .null) ∧
    ∀ b ∈ generateWeeklySchedule 1980 [witnessTask]
        [{ startISO := some 1980, endISO := some 2010 }] .null,
      ∀ iv ∈ [({ startISO := some 1980, endISO := some 2010 } : BusyInterval)],
        ∀ bs be, iv.startISO = some bs → iv.endISO = some be →
          ¬(bStart b < be ∧ bEnd b > bs) := by
  have h := generateWeeklySchedule_no_double_booking 1980 [witnessTask]
    [{ startISO := some 1980, endISO := some 2010 }] .null
  exact ⟨h.1, h.2.2⟩

/-! ## Non-splittable atomicity (claim C5) -/

theorem qget_eq_get (l : List QItem) (i : Nat) (h : i < l.length) :
    qget l i = l.get ⟨i, h⟩ := by
  unfold qget
  rw [List.get?_eq_get h]
  rfl

theorem nodup_qget_id_ne (queue₀ : List QItem)
    (hnodup : (queue₀.map (fun q => q.id)).Nodup)
    (i j : Nat) (hi : i < queue₀.length) (hj : j < queue₀.length) (hij : i ≠ j) :
    (qget queue₀ i).id ≠ (qget queue₀ j).id := by
  intro heq
  apply hij
  have hi' : i < (queue₀.map (fun q => q.id)).length := by simpa using hi
  have hj' : j < (queue₀.map (fun q => q.id)).length := by simpa using hj
  have hinj := List.nodup_iff_injective_get.mp hnodup
  have hgi : (queue₀.map (fun q => q.id)).get ⟨i, hi'⟩ = (qget queue₀ i).id := by
    rw [List.get_map, qget_eq_get queue₀ i hi]
  have hgj : (queue₀.map (fun q => q.id)).get ⟨j, hj'⟩ = (qget queue₀ j).id := by
    rw [List.get_map, qget_eq_get queue₀ j hj]
  have := hinj (show (queue₀.map (fun q => q.id)).get ⟨i, hi'⟩ =
    (queue₀.map (fun q => q.id)).get ⟨j, hj'⟩ by rw [hgi, hgj, heq])
  exact congrArg Fin.val this

theorem slotStep_atomic_inv (busy : List BusyInterval) (preferences : SchedulePreferences)
    (queue₀ : List QItem)
    (hnodup : (queue₀.map (fun q => q.id)).Nodup)
    (dayEnd start : Int) (st : AllocState)
    (hI : AtomicInv queue₀ st) :
    AtomicInv queue₀ (slotStep busy preferences dayEnd start st) := by
  obtain ⟨hlen, hstat, hprov, hatomic⟩ := hI
  simp only [slotStep]
  by_cases hb : isOverlappingBusyWindow start (start + 30) busy = true
  · rw [if_pos hb]
    exact ⟨hlen, hstat, hprov, hatomic⟩
  · rw [if_neg hb]
    by_cases hp : isOverlappingBusyWindow start (start + 30) st.plannedBusyIntervals = true
    · rw [if_pos hp]
      exact ⟨hlen, hstat, hprov, hatomic⟩
    · rw [if_neg hp]
      by_cases hf : st.focusMinutesSinceBreak ≥
          min preferences.breakEveryFocusMinutes preferences.maxContinuousFocusMinutes
      · rw [if_pos hf]
        exact ⟨hlen, hstat, hprov, hatomic⟩
      · rw [if_neg hf]
        rcases hfind : (candidateIndices preferences st.queue st.workedMinutesToday start
            (start + 30)).find? (fun i => placeableAt busy st start dayEnd (qget st.queue i))
          with _ | i
        · exact ⟨hlen, hstat, hprov, hatomic⟩
        · have hpred := List.find?_some hfind
          have hmem := List.mem_of_find?_eq_some hfind
          obtain ⟨hilen, hrem, hdlslot, hnbf, hcap⟩ :=
            candidateIndices_spec preferences st.queue st.workedMinutesToday start (start + 30) i hmem
          have hilen₀ : i < queue₀.length := by omega
          have hstat_i := hstat i hilen₀
          dsimp only
          have hqueuestat : ∀ (x : QItem), queueStatic x (qget queue₀ i) →
              (∀ j, j < queue₀.length → queueStatic (qget (st.queue.set i x) j) (qget queue₀ j)) := by
            intro x hx j hj
            by_cases hij : i = j
            · subst hij
              rw [qget_set_self st.queue i x (by omega)]
              exact hx
            · rw [qget_set_other st.queue i j x hij]
              exact hstat j hj
          have hprovnew : ∀ (minutes : Int),
              ∀ b ∈ st.blocks ++ [mkBlock (qget st.queue i) start minutes],
                ∃ j, j < queue₀.length ∧ b.taskId = (qget queue₀ j).id := by
            intro minutes b hb
            rcases List.mem_append.mp hb with h | h
            · exact hprov b h
            · rw [List.mem_singleton.mp h]
              exact ⟨i, hilen₀, hstat_i.1⟩
          by_cases hsplit : (qget st.queue i).isSplittable = true
          · rw [if_neg (by simp [hsplit])]
            have hfourth : ∀ x : QItem, AtomicProgress queue₀ (st.queue.set i x)
                (st.blocks ++ [mkBlock (qget st.queue i) start 30]) := by
              intro x j hj hjns
              have hij : i ≠ j := by
                intro hij
                subst hij
                rw [← hstat_i.2.2.1, hsplit] at hjns
                cases hjns
              have hidne := nodup_qget_id_ne queue₀ hnodup i j hilen₀ hj hij
              have hpnew : ((mkBlock (qget st.queue i) start 30).taskId ==
                  (qget queue₀ j).id) = false := by
                simp only [beq_eq_false_iff_ne, ne_eq]
                show ¬ (qget st.queue i).id = (qget queue₀ j).id
                rw [hstat_i.1]
                exact hidne
              have hcount : (st.blocks ++ [mkBlock (qget st.queue i) start 30]).countP
                  (fun b => b.taskId == (qget queue₀ j).id) =
                  st.blocks.countP (fun b => b.taskId == (qget queue₀ j).id) := by
                rw [List.countP_append]
                simp [List.countP_cons, hpnew]
              rw [qget_set_other st.queue i j _ hij, hcount]
              rcases hatomic j hj hjns with hcase | hcase
              · exact Or.inl ⟨hcase.1, hcase.2⟩
              · refine Or.inr ⟨hcase.1, hcase.2.1, ?_⟩
                intro b hb hbid
                rcases List.mem_append.mp hb with h | h
                · exact hcase.2.2 b h hbid
                · rw [List.mem_singleton.mp h] at hbid
                  exfalso
                  apply hidne
                  rw [← hstat_i.1]
                  exact hbid
            exact ⟨by simpa using hlen, hqueuestat _ hstat_i, hprovnew 30, hfourth _⟩
          · rw [if_pos (by simp [hsplit])]
            have hns : (qget st.queue i).isSplittable = false := by
              cases h' : (qget st.queue i).isSplittable
              · rfl
              · exact absurd h' hsplit
            have hins : (qget queue₀ i).isSplittable = false := by
              rw [← hstat_i.2.2.1]
              exact hns
            have hold := hatomic i hilen₀ hins
            have hold0 : st.blocks.countP (fun b => b.taskId == (qget queue₀ i).id) = 0 ∧
                (qget st.queue i).remainingMinutes = (qget queue₀ i).totalRoundedMinutes := by
              rcases hold with hcase | hcase
              · exact ⟨hcase.2, hcase.1⟩
              · exfalso
                omega
            have hfourth : ∀ x : QItem, x.remainingMinutes = 0 →
                AtomicProgress queue₀ (st.queue.set i x)
                  (st.blocks ++ [mkBlock (qget st.queue i) start
                    ((qget st.queue i).totalRoundedMinutes)]) := by
              intro x hx0 j hj hjns
              by_cases hij : i = j
              · subst hij
                refine Or.inr ⟨?_, ?_, ?_⟩
                · rw [qget_set_self st.queue i x (by omega)]
                  exact hx0
                · rw [List.countP_append, hold0.1]
                  have hpnew : ((mkBlock (qget st.queue i) start
                      ((qget st.queue i).totalRoundedMinutes)).taskId ==
                      (qget queue₀ i).id) = true := by
                    simp only [beq_iff_eq]
                    exact hstat_i.1
                  simp [List.countP_cons, hpnew]
                · intro b hb hbid
                  rcases List.mem_append.mp hb with h | h
                  · exfalso
                    have hz := List.countP_eq_zero.mp hold0.1 b h
                    simp only [beq_iff_eq] at hz
                    exact hz hbid
                  · rw [List.mem_singleton.mp h]
                    show (qget st.queue i).totalRoundedMinutes = (qget queue₀ i).totalRoundedMinutes
                    exact hstat_i.2.2.2
              · have hidne := nodup_qget_id_ne queue₀ hnodup i j hilen₀ hj hij
                have hpnew : ((mkBlock (qget st.queue i) start
                    ((qget st.queue i).totalRoundedMinutes)).taskId ==
                    (qget queue₀ j).id) = false := by
                  simp only [beq_eq_false_iff_ne, ne_eq]
                  show ¬ (qget st.queue i).id = (qget queue₀ j).id
                  rw [hstat_i.1]
                  exact hidne
                have hcount : (st.blocks ++ [mkBlock (qget st.queue i) start
                    ((qget st.queue i).totalRoundedMinutes)]).countP
                    (fun b => b.taskId == (qget queue₀ j).id) =
                    st.blocks.countP (fun b => b.taskId == (qget queue₀ j).id) := by
                  rw [List.countP_append]
                  simp [List.countP_cons, hpnew]
                rw [qget_set_other st.queue i j _ hij, hcount]
                rcases hatomic j hj hjns with hcase | hcase
                · exact Or.inl ⟨hcase.1, hcase.2⟩
                · refine Or.inr ⟨hcase.1, hcase.2.1, ?_⟩
                  intro b hb hbid
                  rcases List.mem_append.mp hb with h | h
                  · exact hcase.2.2 b h hbid
                  · rw [List.mem_singleton.mp h] at hbid
                    exfalso
                    apply hidne
                    rw [← hstat_i.1]
                    exact hbid
            exact ⟨by simpa using hlen, hqueuestat _ hstat_i,
              hprovnew ((qget st.queue i).totalRoundedMinutes), hfourth _ rfl⟩

theorem countP_le_cons {α : Type} (p : α → Bool) (c : α) (l : List α) :
    l.countP p ≤ (c :: l).countP p := by
  rw [List.countP_cons]
  split
  · omega
  · omega

/-- Merging never increases the count of blocks satisfying a predicate that
only depends on the fields `mergeInto` keeps from its first argument. -/
theorem mergeAux_countP_le (p : ScheduledBlock → Bool)
    (hp : ∀ a b, mergeCond a b → p (mergeInto a b) = p a) :
    ∀ (l : List ScheduledBlock) (last : ScheduledBlock),
      (mergeAux last l).countP p ≤ (last :: l).countP p := by
  intro l
  induction l with
  | nil => exact fun last => le_refl _
  | cons c rest ih =>
    intro last
    simp only [mergeAux]
    by_cases hm : mergeCond last c
    · rw [if_pos hm]
      calc (mergeAux (mergeInto last c) rest).countP p
          ≤ (mergeInto last c :: rest).countP p := ih _
        _ ≤ (last :: c :: rest).countP p := by
            rw [List.countP_cons, List.countP_cons, List.countP_cons, hp last c hm]
            by_cases hc : p c = true
            · rw [if_pos hc]
              omega
            · rw [if_neg hc]
              omega
    · rw [if_neg hm]
      rw [List.countP_cons, List.countP_cons]
      have h1 := ih c
      omega

theorem mergeSequentialBlocks_countP_le (p : ScheduledBlock → Bool)
    (hp : ∀ a b, mergeCond a b → p (mergeInto a b) = p a) (l : List ScheduledBlock) :
    (mergeSequentialBlocks l).countP p ≤ l.countP p := by
  cases l with
  | nil => exact le_refl _
  | cons b rest => exact mergeAux_countP_le p hp rest b

/-- When at most one block carries a given task id, merging touches no block
with that id, so their `minutes` values survive unchanged. -/
theorem mergeAux_unique_minutes (id : String) (M : Int) :
    ∀ (l : List ScheduledBlock) (last : ScheduledBlock),
      ((last :: l).countP (fun b => b.taskId == id)) ≤ 1 →
      (∀ b ∈ last :: l, b.taskId = id → b.minutes = M) →
      ∀ b ∈ mergeAux last l, b.taskId = id → b.minutes = M := by
  intro l
  induction l with
  | nil =>
    intro last _ hall b hb hbid
    have hbl : b = last := List.mem_singleton.mp hb
    rw [hbl] at hbid ⊢
    exact hall last (List.mem_cons_self _ _) hbid
  | cons c rest ih =>
    intro last hcnt hall b hb hbid
    simp only [mergeAux] at hb
    by_cases hm : mergeCond last c
    · rw [if_pos hm] at hb
      by_cases hlast : last.taskId = id
      · exfalso
        have hc : c.taskId = id := hm.1 ▸ hlast
        rw [List.countP_cons, List.countP_cons] at hcnt
        simp only [hlast, hc, beq_self_eq_true, if_pos] at hcnt
        omega
      · refine ih (mergeInto last c) ?_ ?_ b hb hbid
        · have hmi : ((mergeInto last c).taskId == id) = false := by
            simp only [beq_eq_false_iff_ne, ne_eq]
            show ¬ last.taskId = id
            exact hlast
          have hle : (mergeInto last c :: rest).countP (fun b => b.taskId == id) =
              rest.countP (fun b => b.taskId == id) := by
            rw [List.countP_cons, hmi]
            simp
          rw [hle]
          calc rest.countP (fun b => b.taskId == id)
              ≤ (c :: rest).countP (fun b => b.taskId == id) := countP_le_cons _ _ _
            _ ≤ (last :: c :: rest).countP (fun b => b.taskId == id) := countP_le_cons _ _ _
            _ ≤ 1 := hcnt
        · intro x hx hxid
          rcases List.mem_cons.mp hx with rfl | hx'
          · exact absurd hxid hlast
          · exact hall x (List.mem_cons.mpr (Or.inr (List.mem_cons.mpr (Or.inr hx')))) hxid
    · rw [if_neg hm] at hb
      rcases List.mem_cons.mp hb with rfl | hb'
      · exact hall b (List.mem_cons_self _ _) hbid
      · refine ih c ?_ ?_ b hb' hbid
        · calc (c :: rest).countP (fun b => b.taskId == id)
              ≤ (last :: c :: rest).countP (fun b => b.taskId == id) := countP_le_cons _ _ _
            _ ≤ 1 := hcnt
        · intro x hx hxid
          exact hall x (List.mem_cons.mpr (Or.inr hx)) hxid

theorem mergeSequentialBlocks_unique_minutes (id : String) (M : Int)
    (l : List ScheduledBlock)
    (hcnt : (l.countP (fun b => b.taskId == id)) ≤ 1)
    (hall : ∀ b ∈ l, b.taskId = id → b.minutes = M) :
    ∀ b ∈ mergeSequentialBlocks l, b.taskId = id → b.minutes = M := by
  cases l with
  | nil =>
    intro b hb
    cases hb
  | cons x rest => exact mergeAux_unique_minutes id M rest x hcnt hall

theorem buildQueueItem_remaining (now : Int) (task : TaskAnalysis) (q : QItem)
    (h : buildQueueItem now task = some q) :
    q.remainingMinutes = q.totalRoundedMinutes := by
  unfold buildQueueItem at h
  split at h
  · cases h
  · cases h
    rfl

/-- C5: non-splittable atomicity — when task ids are unique (as the data
model requires), a task marked explicitly non-splittable yields at most one
output block, any such block carries the task's full rounded effort as its
duration, and the placement guard admits a non-splittable item only when its
remaining effort is untouched and the contiguous feasibility check succeeds
from the current slot. -/
theorem generateWeeklySchedule_nonsplittable_atomic (now : Int) (analysis : List TaskAnalysis)
    (busyIntervals : List BusyInterval) (preferencesInput : JsValue)
    (hnodup : (analysis.map (fun t => t.id)).Nodup) :
    (∀ task ∈ analysis, task.isSplittable = some false →
      (generateWeeklySchedule now analysis busyIntervals preferencesInput).countP
        (fun b => b.taskId == task.id) ≤ 1 ∧
      ∀ b ∈ generateWeeklySchedule now analysis busyIntervals preferencesInput,
        b.taskId = task.id → b.minutes = roundedMinutesOf task.estimatedHours) ∧
    (∀ busy st start dayEnd item, item.isSplittable = false →
      item.remainingMinutes ≤ item.totalRoundedMinutes →
      placeableAt busy st start dayEnd item = true →
        item.remainingMinutes = item.totalRoundedMinutes ∧
        canFitContiguousBlock busy st.plannedBusyIntervals start dayEnd
          item.totalRoundedMinutes item.deadlineMs item.notBeforeMs = true) := by
  constructor
  · intro task htask htaskns
    have hnodup₀ := buildQueue_ids_nodup now analysis hnodup
    simp only [generateWeeklySchedule]
    set queue₀ := buildQueue now analysis with hq₀
    set preferences := normalizeSchedulePreferences preferencesInput with hprefs
    set schedulingStart := getSchedulingStart now preferences with hss
    set days := workDays schedulingStart (planningDays now schedulingStart analysis).toNat preferences
      with hdays
    set st0 : AllocState :=
      { queue := queue₀, blocks := [], plannedBusyIntervals := [],
        workedMinutesToday := 0, focusMinutesSinceBreak := 0 } with hst0
    set finalState := days.foldl
      (fun st day => runDay busyIntervals preferences schedulingStart day st) st0 with hfinal
    have hfold : AtomicInv queue₀ finalState := by
      refine foldDays_preserves_state busyIntervals preferences schedulingStart (AtomicInv queue₀)
        (fun dayEnd start st h =>
          slotStep_atomic_inv busyIntervals preferences queue₀ hnodup₀ dayEnd start st h)
        (fun st w f h => h) days st0 ?_
      refine ⟨rfl, fun i hi => ⟨rfl, rfl, rfl, rfl⟩,
        fun b hb => (List.not_mem_nil b hb).elim, ?_⟩
      intro i hi _
      refine Or.inl ⟨?_, rfl⟩
      obtain ⟨t, ht, hbuild⟩ := buildQueue_mem_spec now analysis _ (qget_mem queue₀ i hi)
      exact buildQueueItem_remaining now t _ hbuild
    obtain ⟨hlen, hstat, hprov, hatomic⟩ := hfold
    have hkey : finalState.blocks.countP (fun b => b.taskId == task.id) ≤ 1 ∧
        ∀ b ∈ finalState.blocks, b.taskId = task.id →
          b.minutes = roundedMinutesOf task.estimatedHours := by
      cases hbuild : buildQueueItem now task with
      | some q =>
        have hqmem : q ∈ queue₀ := by
          rw [hq₀]
          exact List.mem_filterMap.mpr ⟨task, htask, hbuild⟩
        obtain ⟨hqid, _, hqsplit, hqtot⟩ := buildQueueItem_some_spec now task q hbuild
        obtain ⟨⟨i, hi⟩, hgi⟩ := List.mem_iff_get.mp hqmem
        have hq : qget queue₀ i = q := by
          rw [qget_eq_get queue₀ i hi]
          exact hgi
        have hqns : (qget queue₀ i).isSplittable = false := by
          rw [hq, hqsplit, htaskns]
          decide
        have hA := hatomic i hi hqns
        rw [hq, hqid, hqtot] at hA
        rcases hA with ⟨_, hcnt0⟩ | ⟨_, hcnt1, hmin⟩
        · constructor
          · rw [hcnt0]
            omega
          · intro b hb hbid
            exfalso
            have hz := List.countP_eq_zero.mp hcnt0 b hb
            simp only [beq_iff_eq] at hz
            exact hz hbid
        · exact ⟨by omega, hmin⟩
      | none =>
        have hnone : ∀ b ∈ finalState.blocks, ¬ b.taskId = task.id := by
          intro b hb hbid
          obtain ⟨j, hj, hjid⟩ := hprov b hb
          obtain ⟨task2, htask2, hbuild2⟩ :=
            buildQueue_mem_spec now analysis _ (qget_mem queue₀ j hj)
          have hid2 : (qget queue₀ j).id = task2.id :=
            (buildQueueItem_some_spec now task2 _ hbuild2).1
          have heq : task2.id = task.id := hid2.symm.trans (hjid.symm.trans hbid)
          have hteq := List.inj_on_of_nodup_map hnodup htask2 htask heq
          rw [hteq] at hbuild2
          rw [hbuild2] at hbuild
          cases hbuild
        constructor
        · have hz : finalState.blocks.countP (fun b => b.taskId == task.id) = 0 := by
            apply List.countP_eq_zero.mpr
            intro b hb
            simp only [beq_iff_eq]
            exact hnone b hb
          omega
        · intro b hb hbid
          exact absurd hbid (hnone b hb)
    have hmergecnt : (mergeSequentialBlocks finalState.blocks).countP
        (fun b => b.taskId == task.id) ≤ 1 :=
      le_trans (mergeSequentialBlocks_countP_le (fun b => b.taskId == task.id)
        (fun a b _ => rfl) _) hkey.1
    have hmergemin := mergeSequentialBlocks_unique_minutes task.id
      (roundedMinutesOf task.estimatedHours) finalState.blocks hkey.1 hkey.2
    constructor
    · exact le_trans ((List.filter_sublist _).countP_le _) hmergecnt
    · intro b hb hbid
      exact hmergemin b (List.mem_of_mem_filter hb) hbid
  · intro busy st start dayEnd item hns hle hplace
    obtain ⟨hge, hfit⟩ := placeableAt_nonsplittable_spec busy st start dayEnd item hns hplace
    exact ⟨by omega, hfit⟩

/-- C5 witness: at a concrete run with a non-splittable one-hour task, the
task yields exactly one block, of its full rounded duration. -/
theorem generateWeeklySchedule_nonsplittable_atomic_witness :
    ((generateWeeklySchedule 1980 [witnessTaskNS] [] .null).countP
        (fun b => b.taskId == witnessTaskNS.id) ≤ 1 ∧
      ∀ b ∈ generateWeeklySchedule 1980 [witnessTaskNS] [] .null,
        b.taskId = witnessTaskNS.id → b.minutes = roundedMinutesOf witnessTaskNS.estimatedHours) ∧
    (generateWeeklySchedule 1980 [witnessTaskNS] [] .null).countP
        (fun b => b.taskId == witnessTaskNS.id) = 1 := by
  have h := generateWeeklySchedule_nonsplittable_atomic 1980 [witnessTaskNS] [] .null (by decide)
  have h1 := h.1 witnessTaskNS (List.mem_singleton.mpr rfl) rfl
  exact ⟨⟨h1.1, h1.2⟩, by decide⟩

end Planner
